import Mathlib

/-!
# A verification development for the csynth synthesis engine

This file gives a shallow embedding, over exact rationals, of the parts of
the csynth code base that the verified properties below are about:

* the patch build/load/install protocol (`csynth.c`: `get_patch`, `work`,
  `work_response`),
* the voice allocation policy (`csynth.c`: `allocate_voice`),
* the sample-writing path of the render loop (`csynth.c`: `write_samples`,
  `run`),
* the signal-primitive library (`lib/generators.h`, `oscillators.h`,
  `lib/signals.h`, `lib/envelopes.h`): noise generators, oscillators, the
  rectifier, the delay line and the ADSR envelope.

Machine floats are modelled as exact rationals (`ℚ`).  The C library
functions `fmod` and `round` and C's truncating integer `%` are modelled by
explicit functions (`fmodQ`, `roundQ`, `Int.tmod`) with the C semantics.
Calls to `rand()` are modelled by explicit rational parameters, and the
transcendental `sin` by an explicit function parameter.
-/

namespace CSynthModel

/-- C truncation of a rational toward zero, as an integer (the behavior of a
C cast from a floating value to `int`, overflow aside). -/
def truncQ (q : ℚ) : ℤ := if q < 0 then ⌈q⌉ else ⌊q⌋

/-- C `fmod x y = x - y * trunc (x / y)`: the remainder with the sign of `x`.
(For `y = 0`, where C produces NaN, rational division yields `x / 0 = 0` and
hence `fmodQ x 0 = x`; no property below depends on that case.) -/
def fmodQ (x y : ℚ) : ℚ := x - y * ((truncQ (x / y) : ℤ) : ℚ)

/-- C `round`: nearest integer, halfway cases away from zero. -/
def roundQ (q : ℚ) : ℚ :=
  if q < 0 then -((⌊-q + 1/2⌋ : ℤ) : ℚ) else ((⌊q + 1/2⌋ : ℤ) : ℚ)

theorem truncQ_of_nonneg {q : ℚ} (h : 0 ≤ q) : truncQ q = ⌊q⌋ := by
  simp [truncQ, not_lt.mpr h]

theorem fmodQ_one_of_nonneg {x : ℚ} (h : 0 ≤ x) : fmodQ x 1 = Int.fract x := by
  unfold fmodQ
  rw [div_one, truncQ_of_nonneg h, one_mul, Int.self_sub_floor]

/-! ## The patch lifecycle (`csynth.c` / `patch.h`)

A `Patch` as seen by the engine carries a `built` flag (the compiler produced
a shared object) and a `loaded` flag (`dlopen`/`dlsym` succeeded and the step
entry point is available).  `build_patch` can also return `NULL` when
allocation fails; we model its outcome as `Option Bool` (`none` for `NULL`,
`some built` otherwise), and the success of the load step as a `Bool`. -/

structure Patch where
  built : Bool
  loaded : Bool
deriving DecidableEq, Repr

/-- `get_patch` from `csynth.c`: build, then (only if built) load; a failed
load disposes the unit when `disposeInvalid` is set, a failed build merely
warns and returns the unbuilt unit. -/
def get_patch (buildResult : Option Bool) (loadOk : Bool) (disposeInvalid : Bool) :
    Option Patch :=
  match buildResult with
  | none => none
  | some built =>
    if !built then some ⟨false, false⟩
    else if loadOk then some ⟨true, true⟩
    else if disposeInvalid then none
    else some ⟨true, false⟩

/-- The codepath patch-Set round trip `work` → `respond` → `work_response`
from `csynth.c`: `work` calls `get_patch` with `dispose_invalid = true` and
responds only with a non-`NULL` unit; `work_response` schedules disposal of
the old unit and installs the new one unconditionally.  The result is the
patch installed after the exchange. -/
def request_patch_build (current : Option Patch) (buildResult : Option Bool)
    (loadOk : Bool) : Option Patch :=
  match get_patch buildResult loadOk true with
  | none => current
  | some p => some p

/-- C1 counterexample: with a working patch installed, a *build* failure
(compiler error: `build_patch` returns a unit with `built = false`) makes
`work` respond with that unit and `work_response` installs it, replacing the
previously installed working unit with a partially-valid one. -/
theorem build_failure_installs_failed_patch :
    request_patch_build (some ⟨true, true⟩) (some false) true = some ⟨false, false⟩ ∧
      request_patch_build (some ⟨true, true⟩) (some false) true ≠ some ⟨true, true⟩ := by
  decide

/-- C1 amended: when the build step returns no unit at all, or the unit
builds but fails to *load* (`dispose_invalid` is true on the worker path, so
the unit is disposed and never sent back), the previously installed patch
remains the current one. -/
theorem load_failure_keeps_previous_patch (current : Option Patch)
    (buildResult : Option Bool) (h : buildResult = none ∨ buildResult = some true) :
    request_patch_build current buildResult false = current := by
  rcases h with h | h <;> subst h <;> rfl

theorem load_failure_keeps_previous_patch_witness :
    ((some true : Option Bool) = none ∨ (some true : Option Bool) = some true) ∧
      request_patch_build (some ⟨true, true⟩) (some true) false = some ⟨true, true⟩ :=
  ⟨Or.inr rfl, load_failure_keeps_previous_patch (some ⟨true, true⟩) (some true) (Or.inr rfl)⟩

/-! ## The sample-writing path (`csynth.c`: `write_samples`) -/

/-- `write_samples` from `csynth.c`.  The per-voice patch step function is
modelled as a pure function of (absolute sample position, voice index); the
result is the list of output samples for positions `[start, end)` together
with the number of invocations of the patch step function.  With no patch,
or a patch whose `loaded` flag is false, the block is zero-filled and the
step function is never invoked. -/
def write_samples (patch : Option Patch) (stepFn : Nat → Nat → ℚ)
    (voiceCount startSample endSample : Nat) : List ℚ × Nat :=
  match patch with
  | none => (List.replicate (endSample - startSample) 0, 0)
  | some p =>
    if !p.loaded then (List.replicate (endSample - startSample) 0, 0)
    else
      ((List.range (endSample - startSample)).map (fun i =>
          (List.range voiceCount).foldl (fun sample v => sample + stepFn (startSample + i) v) 0),
        (endSample - startSample) * voiceCount)

/-- C5: if no patch is installed, or the installed patch's `loaded` flag is
false, every sample written for the block is `0` and the patch step function
is never invoked. -/
theorem write_samples_silence_without_patch (patch : Option Patch)
    (stepFn : Nat → Nat → ℚ) (voiceCount startSample endSample : Nat)
    (h : patch = none ∨ ∃ p, patch = some p ∧ p.loaded = false) :
    (∀ x ∈ (write_samples patch stepFn voiceCount startSample endSample).1, x = 0) ∧
      (write_samples patch stepFn voiceCount startSample endSample).2 = 0 := by
  rcases h with h | ⟨p, hp, hl⟩
  · subst h
    exact ⟨fun x hx => List.eq_of_mem_replicate hx, rfl⟩
  · subst hp
    have hw : write_samples (some p) stepFn voiceCount startSample endSample =
        (List.replicate (endSample - startSample) 0, 0) := by
      simp only [write_samples, hl, Bool.not_false, if_true]
    rw [hw]
    exact ⟨fun x hx => List.eq_of_mem_replicate hx, rfl⟩

theorem write_samples_silence_without_patch_witness :
    ((none : Option Patch) = none ∨ ∃ p, (none : Option Patch) = some p ∧ p.loaded = false) ∧
      ((∀ x ∈ (write_samples none (fun _ _ => 7) 4 0 16).1, x = 0) ∧
        (write_samples none (fun _ _ => 7) 4 0 16).2 = 0) :=
  ⟨Or.inl rfl, write_samples_silence_without_patch none (fun _ _ => 7) 4 0 16 (Or.inl rfl)⟩

/-! ## The event-interleaved render loop (`csynth.c`: `run`) -/

/-- The (dead) clamp applied to an event timestamp in `run`:
`if (event_sample > sample_count) event_sample = event_sample;`. -/
def clampEventSample (eventSample sampleCount : Nat) : Nat :=
  if eventSample > sampleCount then eventSample else eventSample

/-- The event loop of `run` from `csynth.c`, reduced to the segment
boundaries it passes to `write_samples`: for each event it renders
`[start_sample, event_sample)` and advances the cursor, and after the last
event it renders the rest of the block. -/
def runSegments (sampleCount : Nat) : List Nat → Nat → List (Nat × Nat)
  | [], startSample => [(startSample, sampleCount)]
  | t :: rest, startSample =>
    let eventSample := clampEventSample t sampleCount
    (startSample, eventSample) :: runSegments sampleCount rest eventSample

/-- C9: an event timestamp greater than the block's `sample_count` passes
through the clamp unchanged and is used as-is as the end of the pre-event
render segment (and as the next cursor position); it is neither clamped to
the block end nor rejected. -/
theorem event_timestamp_clamp_noop (sampleCount startSample t : Nat)
    (rest : List Nat) (h : t > sampleCount) :
    clampEventSample t sampleCount = t ∧
      runSegments sampleCount (t :: rest) startSample =
        (startSample, t) :: runSegments sampleCount rest t := by
  constructor
  · simp [clampEventSample]
  · simp [runSegments, clampEventSample]

theorem event_timestamp_clamp_noop_witness :
    5 > 3 ∧
      (clampEventSample 5 3 = 5 ∧
        runSegments 3 [5] 0 = (0, 5) :: runSegments 3 [] 5) :=
  ⟨by decide, event_timestamp_clamp_noop 3 0 5 [] (by decide)⟩

/-! ## Oscillator phase update (`oscillators.h`: `Oscillator::step`) -/

/-- The phase update performed by `Oscillator::step` (and hence by every
oscillator variant, all of which delegate to it):
`phase += STEP_TIME * frequency; if (phase >= 1.0) phase = fmod(phase, 1.0);`. -/
def oscStepPhase (stepTime freq phase : ℚ) : ℚ :=
  let ph := phase + stepTime * freq
  if ph ≥ 1 then fmodQ ph 1 else ph

/-- Phase after a sequence of `step` calls with the given per-call
frequencies. -/
def oscRunPhase (stepTime : ℚ) (freqs : List ℚ) (phase : ℚ) : ℚ :=
  freqs.foldl (fun ph f => oscStepPhase stepTime f ph) phase

/-- C8 counterexample: with a negative frequency assigned (as the FM
processor can do), one `Oscillator::step` at phase `0` leaves the phase at
`-1`, outside `[0, 1)`: the wrap only fires for `phase >= 1.0`. -/
theorem osc_phase_negative_freq_cex :
    oscStepPhase (1/64) (-64) 0 = -1 ∧ ¬ (0 ≤ oscStepPhase (1/64) (-64) 0) := by
  constructor <;> norm_num [oscStepPhase, fmodQ, truncQ]

/-- C8 amended: provided every frequency assigned is nonnegative (more
precisely `STEP_TIME * frequency ≥ 0`), the phase stays in `[0, 1)` after
every `step` call, both for a single step and along any sequence of steps
with frequency changes between calls. -/
theorem osc_phase_invariant_amended (stepTime : ℚ) :
    (∀ freq phase, 0 ≤ stepTime * freq → 0 ≤ phase → phase < 1 →
      0 ≤ oscStepPhase stepTime freq phase ∧ oscStepPhase stepTime freq phase < 1) ∧
    (∀ freqs : List ℚ, ∀ phase, (∀ f ∈ freqs, 0 ≤ stepTime * f) → 0 ≤ phase → phase < 1 →
      0 ≤ oscRunPhase stepTime freqs phase ∧ oscRunPhase stepTime freqs phase < 1) := by
  have hstep : ∀ freq phase, 0 ≤ stepTime * freq → 0 ≤ phase → phase < 1 →
      0 ≤ oscStepPhase stepTime freq phase ∧ oscStepPhase stepTime freq phase < 1 := by
    intro freq phase hd hp0 hp1
    unfold oscStepPhase
    set ph := phase + stepTime * freq with hph
    have hph0 : 0 ≤ ph := by positivity
    by_cases hge : ph ≥ 1
    · rw [if_pos hge, fmodQ_one_of_nonneg hph0]
      exact ⟨Int.fract_nonneg ph, Int.fract_lt_one ph⟩
    · rw [if_neg hge]
      exact ⟨hph0, lt_of_not_ge hge⟩
  refine ⟨hstep, ?_⟩
  intro freqs
  induction freqs with
  | nil => intro phase _ hp0 hp1; exact ⟨hp0, hp1⟩
  | cons f rest ih =>
    intro phase hall hp0 hp1
    have h1 := hstep f phase (hall f (by simp)) hp0 hp1
    have := ih (oscStepPhase stepTime f phase)
      (fun g hg => hall g (by simp [hg])) h1.1 h1.2
    simpa [oscRunPhase] using this

theorem osc_phase_invariant_amended_witness :
    (0 ≤ (1/64 : ℚ) * 440 ∧ 0 ≤ (0:ℚ) ∧ (0:ℚ) < 1) ∧
      (0 ≤ oscStepPhase (1/64) 440 0 ∧ oscStepPhase (1/64) 440 0 < 1) :=
  ⟨⟨by norm_num, le_refl 0, by norm_num⟩,
    (osc_phase_invariant_amended (1/64)).1 440 0 (by norm_num) (le_refl 0) (by norm_num)⟩

/-! ## Voice allocation (`csynth.c`: `allocate_voice`)

A `Voice` record; `allocate_voice` scans the voices `[0, get_voice_count)`
and reads only `velocity` and `allocation_index`. -/

structure VoiceR where
  note : ℤ
  frequency : ℚ
  velocity : ℚ
  allocationIndex : ℤ
deriving DecidableEq, Repr

/-- `get_voice_count`: the polyphony setting clamped to
`[1, MAX_VOICE_COUNT]` (the constant `MAX_VOICE_COUNT` lives in `csynth.h`,
outside the sources at hand, so it is a parameter here). -/
def get_voice_count (maxVoiceCount polyphony : ℤ) : ℤ :=
  let v := polyphony
  let v := if v < 1 then 1 else v
  let v := if v > maxVoiceCount then maxVoiceCount else v
  v

/-- The scan loop of `allocate_voice` over the eligible voices (given as a
list), carrying the loop counter `i` and the loop state
`(index, minimum_index)` exactly as in the source: a voice with positive
velocity is skipped; otherwise the voice is taken as the new candidate when
`minimum_index < 0` or its allocation index is strictly smaller. -/
def allocLoop : List VoiceR → Nat → Nat → ℤ → Nat
  | [], _, index, _ => index
  | v :: rest, i, index, minimumIndex =>
    if 0 < v.velocity then allocLoop rest (i + 1) index minimumIndex
    else if minimumIndex < 0 ∨ v.allocationIndex < minimumIndex then
      allocLoop rest (i + 1) i v.allocationIndex
    else allocLoop rest (i + 1) index minimumIndex

/-- `allocate_voice` from `csynth.c`, returning the selected voice index
(the subsequent stamping of the voice with the incremented global
allocation counter is not modelled). -/
def allocate_voice (voices : List VoiceR) : Nat :=
  allocLoop voices 0 0 (-1)

/-- Proof helper (not part of the embedding): the position and allocation
index of the earliest silent voice with minimal allocation index, if any. -/
def selBest : List VoiceR → Option (Nat × ℤ)
  | [] => none
  | v :: rest =>
    match selBest rest with
    | none => if v.velocity ≤ 0 then some (0, v.allocationIndex) else none
    | some (j, b) =>
      if v.velocity ≤ 0 then
        if v.allocationIndex ≤ b then some (0, v.allocationIndex) else some (j + 1, b)
      else some (j + 1, b)


theorem selBest_eq_none_iff (l : List VoiceR) :
    selBest l = none ↔ ∀ v ∈ l, 0 < v.velocity := by
  induction l with
  | nil => simp [selBest]
  | cons v rest ih =>
    cases hrest : selBest rest with
    | none =>
      have hall := ih.mp hrest
      by_cases hv : v.velocity ≤ 0
      · have hc : selBest (v :: rest) = some (0, v.allocationIndex) := by
          simp [selBest, hrest, hv]
        rw [hc]
        constructor
        · intro habs; exact Option.noConfusion habs
        · intro h2; exact absurd (h2 v (by simp)) (not_lt.mpr hv)
      · have hc : selBest (v :: rest) = none := by simp [selBest, hrest, hv]
        rw [hc]
        constructor
        · intro _ w hw
          rcases List.mem_cons.mp hw with hw | hw
          · subst hw; exact lt_of_not_le hv
          · exact hall w hw
        · intro _; rfl
    | some jb =>
      rcases jb with ⟨j, b⟩
      have hrest' : ¬ ∀ w ∈ rest, 0 < w.velocity := by
        intro h2
        rw [ih.mpr h2] at hrest
        exact Option.noConfusion hrest
      have hc : ∃ p, selBest (v :: rest) = some p := by
        by_cases hv : v.velocity ≤ 0 <;> by_cases hle : v.allocationIndex ≤ b <;>
          simp [selBest, hrest, hv, hle]
      rcases hc with ⟨p, hc⟩
      rw [hc]
      constructor
      · intro habs; exact Option.noConfusion habs
      · intro h2
        exact absurd (fun w hw => h2 w (List.mem_cons_of_mem v hw)) hrest'

theorem selBest_spec (l : List VoiceR) (j : Nat) (b : ℤ)
    (h : selBest l = some (j, b)) :
    ∃ hj : j < l.length,
      (l.get ⟨j, hj⟩).velocity ≤ 0 ∧ (l.get ⟨j, hj⟩).allocationIndex = b ∧
      (∀ k, ∀ hk : k < l.length, (l.get ⟨k, hk⟩).velocity ≤ 0 →
        b ≤ (l.get ⟨k, hk⟩).allocationIndex) ∧
      (∀ k, ∀ hk : k < l.length, k < j → (l.get ⟨k, hk⟩).velocity ≤ 0 →
        b < (l.get ⟨k, hk⟩).allocationIndex) := by
  induction l generalizing j b with
  | nil => exact absurd h (by simp [selBest])
  | cons v rest ih =>
    cases hrest : selBest rest with
    | none =>
      have hall := (selBest_eq_none_iff rest).mp hrest
      by_cases hv : v.velocity ≤ 0
      · have hc : selBest (v :: rest) = some (0, v.allocationIndex) := by
          simp [selBest, hrest, hv]
        rw [hc] at h
        injection h with h'
        injection h' with hj0 hb
        subst hj0; subst hb
        refine ⟨by simp, hv, rfl, ?_, ?_⟩
        · intro k hk hsil
          match k with
          | 0 => exact le_refl _
          | Nat.succ k' =>
            exfalso
            have hk' : k' < rest.length := by simpa using hk
            have hmem : (v :: rest).get ⟨k' + 1, hk⟩ ∈ rest := by
              simpa using List.get_mem rest ⟨k', hk'⟩
            exact absurd (hall _ hmem) (not_lt.mpr hsil)
        · intro k hk hkj; omega
      · have hc : selBest (v :: rest) = none := by simp [selBest, hrest, hv]
        rw [hc] at h
        exact Option.noConfusion h
    | some jb =>
      rcases jb with ⟨j', b'⟩
      rcases ih j' b' hrest with ⟨hj', hsil', hb', hmin', hearl'⟩
      by_cases hv : v.velocity ≤ 0
      · by_cases hle : v.allocationIndex ≤ b'
        · have hc : selBest (v :: rest) = some (0, v.allocationIndex) := by
            simp [selBest, hrest, hv, hle]
          rw [hc] at h
          injection h with h'
          injection h' with hj0 hb
          subst hj0; subst hb
          refine ⟨by simp, hv, rfl, ?_, ?_⟩
          · intro k hk hsil
            match k with
            | 0 => exact le_refl _
            | Nat.succ k' =>
              have hk' : k' < rest.length := by simpa using hk
              have h1 : b' ≤ (rest.get ⟨k', hk'⟩).allocationIndex :=
                hmin' k' hk' (by simpa using hsil)
              have h2 : ((v :: rest).get ⟨k' + 1, hk⟩).allocationIndex =
                  (rest.get ⟨k', hk'⟩).allocationIndex := by simp
              rw [h2]
              exact le_trans hle h1
          · intro k hk hkj; omega
        · have hc : selBest (v :: rest) = some (j' + 1, b') := by
            simp [selBest, hrest, hv, hle]
          rw [hc] at h
          injection h with h'
          injection h' with hj0 hb
          subst hb
          have hjj : j = j' + 1 := hj0.symm
          subst hjj
          refine ⟨by simpa using Nat.succ_lt_succ hj', by simpa using hsil',
            by simpa using hb', ?_, ?_⟩
          · intro k hk hsil
            match k with
            | 0 =>
              have : b' < v.allocationIndex := lt_of_not_le hle
              simpa using le_of_lt this
            | Nat.succ k' =>
              have hk' : k' < rest.length := by simpa using hk
              simpa using hmin' k' hk' (by simpa using hsil)
          · intro k hk hkj hsil
            match k with
            | 0 => simpa using lt_of_not_le hle
            | Nat.succ k' =>
              have hk' : k' < rest.length := by simpa using hk
              have : b' < (rest.get ⟨k', hk'⟩).allocationIndex :=
                hearl' k' hk' (by omega) (by simpa using hsil)
              simpa using this
      · have hc : selBest (v :: rest) = some (j' + 1, b') := by
          simp [selBest, hrest, hv]
        rw [hc] at h
        injection h with h'
        injection h' with hj0 hb
        subst hb
        have hjj : j = j' + 1 := hj0.symm
        subst hjj
        refine ⟨by simpa using Nat.succ_lt_succ hj', by simpa using hsil',
          by simpa using hb', ?_, ?_⟩
        · intro k hk hsil
          match k with
          | 0 => exact absurd hsil hv
          | Nat.succ k' =>
            have hk' : k' < rest.length := by simpa using hk
            simpa using hmin' k' hk' (by simpa using hsil)
        · intro k hk hkj hsil
          match k with
          | 0 => exact absurd hsil hv
          | Nat.succ k' =>
            have hk' : k' < rest.length := by simpa using hk
            have : b' < (rest.get ⟨k', hk'⟩).allocationIndex :=
              hearl' k' hk' (by omega) (by simpa using hsil)
            simpa using this

/-- If every voice is sounding, the scan loop never updates its candidate
and returns the initial `index`, whatever the accumulator state is. -/
theorem allocLoop_no_silent (l : List VoiceR) (i idx : Nat) (a : ℤ)
    (h : ∀ v ∈ l, 0 < v.velocity) : allocLoop l i idx a = idx := by
  induction l generalizing i idx a with
  | nil => rfl
  | cons v rest ih =>
    have hv : 0 < v.velocity := h v (by simp)
    simp only [allocLoop, if_pos hv]
    exact ih (i + 1) idx a (fun w hw => h w (List.mem_cons_of_mem v hw))


/-- The loop in the candidate state (`0 ≤ a`, current candidate `idx`):
it finishes on `idx` unless some silent voice strictly improves on `a`, in
which case it lands on the earliest minimal silent voice. -/
theorem allocLoop_cand_some (l : List VoiceR) (j : Nat) (b : ℤ)
    (hsel : selBest l = some (j, b)) (i idx : Nat) (a : ℤ)
    (hpos : ∀ v ∈ l, 0 ≤ v.allocationIndex) (ha : 0 ≤ a) :
    allocLoop l i idx a = if b < a then i + j else idx := by
  induction l generalizing j b i idx a with
  | nil => exact absurd hsel (by simp [selBest])
  | cons v rest ih =>
    have hposr : ∀ w ∈ rest, 0 ≤ w.allocationIndex :=
      fun w hw => hpos w (List.mem_cons_of_mem v hw)
    by_cases hv : 0 < v.velocity
    · have hv' : ¬ v.velocity ≤ 0 := not_le.mpr hv
      cases hrest : selBest rest with
      | none =>
        have hc : selBest (v :: rest) = none := by simp [selBest, hrest, hv']
        rw [hc] at hsel; exact Option.noConfusion hsel
      | some jb =>
        rcases jb with ⟨j0, b0⟩
        have hc : selBest (v :: rest) = some (j0 + 1, b0) := by
          simp [selBest, hrest, hv']
        rw [hc] at hsel
        injection hsel with h'
        injection h' with hj0 hb
        have hjj : j = j0 + 1 := hj0.symm
        subst hjj
        subst hb
        simp only [allocLoop, if_pos hv]
        rw [ih j0 b0 hrest (i + 1) idx a hposr ha]
        by_cases hba : b0 < a
        · simp only [if_pos hba]; omega
        · simp only [if_neg hba]
    · have hv' : v.velocity ≤ 0 := not_lt.mp hv
      have hva : 0 ≤ v.allocationIndex := hpos v (by simp)
      simp only [allocLoop, if_neg hv]
      by_cases hlt : v.allocationIndex < a
      · rw [if_pos (Or.inr hlt)]
        cases hrest : selBest rest with
        | none =>
          have hc : selBest (v :: rest) = some (0, v.allocationIndex) := by
            simp [selBest, hrest, hv']
          rw [hc] at hsel
          injection hsel with h'
          injection h' with hj0 hb
          subst hj0; subst hb
          rw [allocLoop_no_silent rest (i + 1) i _
            ((selBest_eq_none_iff rest).mp hrest)]
          rw [if_pos hlt]
          omega
        | some jb =>
          rcases jb with ⟨j0, b0⟩
          by_cases hble : v.allocationIndex ≤ b0
          · have hc : selBest (v :: rest) = some (0, v.allocationIndex) := by
              simp [selBest, hrest, hv', hble]
            rw [hc] at hsel
            injection hsel with h'
            injection h' with hj0 hb
            subst hj0; subst hb
            rw [ih j0 b0 hrest (i + 1) i _ hposr hva]
            rw [if_neg (not_lt.mpr hble), if_pos hlt]
            omega
          · have hc : selBest (v :: rest) = some (j0 + 1, b0) := by
              simp [selBest, hrest, hv', hble]
            rw [hc] at hsel
            injection hsel with h'
            injection h' with hj0 hb
            have hjj : j = j0 + 1 := hj0.symm
            subst hjj
            subst hb
            rw [ih j0 b0 hrest (i + 1) i _ hposr hva]
            have hb0v : b0 < v.allocationIndex := lt_of_not_le hble
            have hba : b0 < a := lt_trans hb0v hlt
            rw [if_pos hb0v, if_pos hba]
            omega
      · rw [if_neg (by push_neg; exact ⟨ha, not_lt.mp hlt⟩)]
        cases hrest : selBest rest with
        | none =>
          have hc : selBest (v :: rest) = some (0, v.allocationIndex) := by
            simp [selBest, hrest, hv']
          rw [hc] at hsel
          injection hsel with h'
          injection h' with hj0 hb
          subst hj0; subst hb
          rw [allocLoop_no_silent rest (i + 1) idx _
            ((selBest_eq_none_iff rest).mp hrest)]
          rw [if_neg hlt]
        | some jb =>
          rcases jb with ⟨j0, b0⟩
          by_cases hble : v.allocationIndex ≤ b0
          · have hc : selBest (v :: rest) = some (0, v.allocationIndex) := by
              simp [selBest, hrest, hv', hble]
            rw [hc] at hsel
            injection hsel with h'
            injection h' with hj0 hb
            subst hj0; subst hb
            rw [ih j0 b0 hrest (i + 1) idx _ hposr ha]
            have hba : ¬ b0 < a := by omega
            rw [if_neg hba, if_neg hlt]
          · have hc : selBest (v :: rest) = some (j0 + 1, b0) := by
              simp [selBest, hrest, hv', hble]
            rw [hc] at hsel
            injection hsel with h'
            injection h' with hj0 hb
            have hjj : j = j0 + 1 := hj0.symm
            subst hjj
            subst hb
            rw [ih j0 b0 hrest (i + 1) idx _ hposr ha]
            by_cases hba : b0 < a
            · rw [if_pos hba, if_pos hba]; omega
            · rw [if_neg hba, if_neg hba]

/-- The loop in the initial state (`minimum_index = -1`): when a silent
voice exists, the result is the earliest minimal silent voice. -/
theorem allocLoop_start_some (l : List VoiceR) (j : Nat) (b : ℤ)
    (hsel : selBest l = some (j, b)) (i idx : Nat)
    (hpos : ∀ v ∈ l, 0 ≤ v.allocationIndex) :
    allocLoop l i idx (-1) = i + j := by
  induction l generalizing j b i idx with
  | nil => exact absurd hsel (by simp [selBest])
  | cons v rest ih =>
    have hposr : ∀ w ∈ rest, 0 ≤ w.allocationIndex :=
      fun w hw => hpos w (List.mem_cons_of_mem v hw)
    by_cases hv : 0 < v.velocity
    · have hv' : ¬ v.velocity ≤ 0 := not_le.mpr hv
      cases hrest : selBest rest with
      | none =>
        have hc : selBest (v :: rest) = none := by simp [selBest, hrest, hv']
        rw [hc] at hsel; exact Option.noConfusion hsel
      | some jb =>
        rcases jb with ⟨j0, b0⟩
        have hc : selBest (v :: rest) = some (j0 + 1, b0) := by
          simp [selBest, hrest, hv']
        rw [hc] at hsel
        injection hsel with h'
        injection h' with hj0 hb
        have hjj : j = j0 + 1 := hj0.symm
        subst hjj
        subst hb
        simp only [allocLoop, if_pos hv]
        rw [ih j0 b0 hrest (i + 1) idx hposr]
        omega
    · have hv' : v.velocity ≤ 0 := not_lt.mp hv
      have hva : 0 ≤ v.allocationIndex := hpos v (by simp)
      simp only [allocLoop, if_neg hv]
      rw [if_pos (Or.inl (by norm_num : (-1 : ℤ) < 0))]
      cases hrest : selBest rest with
      | none =>
        have hc : selBest (v :: rest) = some (0, v.allocationIndex) := by
          simp [selBest, hrest, hv']
        rw [hc] at hsel
        injection hsel with h'
        injection h' with hj0 hb
        subst hj0
        rw [allocLoop_no_silent rest (i + 1) i _
          ((selBest_eq_none_iff rest).mp hrest)]
        omega
      | some jb =>
        rcases jb with ⟨j0, b0⟩
        by_cases hble : v.allocationIndex ≤ b0
        · have hc : selBest (v :: rest) = some (0, v.allocationIndex) := by
            simp [selBest, hrest, hv', hble]
          rw [hc] at hsel
          injection hsel with h'
          injection h' with hj0 hb
          subst hj0
          rw [allocLoop_cand_some rest j0 b0 hrest (i + 1) i _ hposr hva]
          rw [if_neg (not_lt.mpr hble)]
          omega
        · have hc : selBest (v :: rest) = some (j0 + 1, b0) := by
            simp [selBest, hrest, hv', hble]
          rw [hc] at hsel
          injection hsel with h'
          injection h' with hj0 hb
          have hjj : j = j0 + 1 := hj0.symm
          subst hjj
          subst hb
          rw [allocLoop_cand_some rest j0 b0 hrest (i + 1) i _ hposr hva]
          rw [if_pos (lt_of_not_le hble)]
          omega

/-- C2 counterexample: with two sounding voices where voice 1 is the least
recently used (allocation index 1 < 2), `allocate_voice` nevertheless
selects voice 0: when no voice is silent the loop never updates `index`,
which keeps its initial value `0`, so the least-recently-used voice is not
the one stolen. -/
theorem steal_ignores_recency_cex :
    allocate_voice [⟨60, 440, 1, 2⟩, ⟨62, 494, 1, 1⟩] = 0 ∧
      (∀ v ∈ ([⟨60, 440, 1, 2⟩, ⟨62, 494, 1, 1⟩] : List VoiceR), 0 < v.velocity) ∧
      (([⟨60, 440, 1, 2⟩, ⟨62, 494, 1, 1⟩] : List VoiceR).get
          ⟨1, by norm_num⟩).allocationIndex <
        (([⟨60, 440, 1, 2⟩, ⟨62, 494, 1, 1⟩] : List VoiceR).get
          ⟨0, by norm_num⟩).allocationIndex := by
  refine ⟨rfl, ?_, by norm_num⟩
  decide

/-- C2 amended: among the eligible voices (whose allocation indices and
velocities are nonnegative, as the program maintains), if some voice is
silent (velocity 0) then the selected voice is silent, has the least
allocation index among the silent voices, and ties are broken by the lowest
index; if no eligible voice is silent, voice index 0 is stolen regardless of
recency. -/
theorem allocate_voice_spec_amended (voices : List VoiceR)
    (hpos : ∀ v ∈ voices, 0 ≤ v.allocationIndex)
    (hvel : ∀ v ∈ voices, 0 ≤ v.velocity) :
    ((∃ j, ∃ hj : j < voices.length, (voices.get ⟨j, hj⟩).velocity = 0) →
      ∃ hr : allocate_voice voices < voices.length,
        (voices.get ⟨allocate_voice voices, hr⟩).velocity = 0 ∧
        (∀ k, ∀ hk : k < voices.length, (voices.get ⟨k, hk⟩).velocity = 0 →
          (voices.get ⟨allocate_voice voices, hr⟩).allocationIndex ≤
            (voices.get ⟨k, hk⟩).allocationIndex) ∧
        (∀ k, ∀ hk : k < voices.length, (voices.get ⟨k, hk⟩).velocity = 0 →
          (voices.get ⟨k, hk⟩).allocationIndex =
            (voices.get ⟨allocate_voice voices, hr⟩).allocationIndex →
          allocate_voice voices ≤ k)) ∧
    ((∀ k, ∀ hk : k < voices.length, 0 < (voices.get ⟨k, hk⟩).velocity) →
      allocate_voice voices = 0) := by
  constructor
  · rintro ⟨j, hj, hsil⟩
    cases hsel : selBest voices with
    | none =>
      exfalso
      have hall := (selBest_eq_none_iff voices).mp hsel
      have := hall _ (List.get_mem voices j hj)
      rw [hsil] at this
      exact lt_irrefl 0 this
    | some jb =>
      rcases jb with ⟨j0, b⟩
      have hres : allocate_voice voices = j0 := by
        unfold allocate_voice
        rw [allocLoop_start_some voices j0 b hsel 0 0 hpos]
        omega
      rcases selBest_spec voices j0 b hsel with ⟨hj0, hsil0, hb0, hmin0, hearl0⟩
      rw [hres]
      refine ⟨hj0, ?_, ?_, ?_⟩
      · exact le_antisymm hsil0 (hvel _ (List.get_mem voices j0 hj0))
      · intro k hk hk0
        rw [hb0]
        exact hmin0 k hk (le_of_eq hk0)
      · intro k hk hk0 heq
        by_contra hlt
        have hkj : k < j0 := by omega
        have := hearl0 k hk hkj (le_of_eq hk0)
        rw [heq, hb0] at this
        exact lt_irrefl _ this
  · intro hall
    have hall' : ∀ v ∈ voices, 0 < v.velocity := by
      intro v hv
      rcases List.mem_iff_get.mp hv with ⟨n, hn⟩
      rw [← hn]
      exact hall n.1 n.2
    unfold allocate_voice
    exact allocLoop_no_silent voices 0 0 (-1) hall'

/-- The concrete voice list used by the witness for the amended C2 claim:
voices 0 and 1 are silent, voice 1 has the smaller allocation index. -/
def witnessVoices : List VoiceR := [⟨60, 440, 0, 5⟩, ⟨62, 494, 0, 3⟩, ⟨64, 330, 1, 4⟩]

theorem allocate_voice_spec_amended_witness :
    ∃ hr : allocate_voice witnessVoices < witnessVoices.length,
      (witnessVoices.get ⟨allocate_voice witnessVoices, hr⟩).velocity = 0 ∧
      (∀ k, ∀ hk : k < witnessVoices.length,
        (witnessVoices.get ⟨k, hk⟩).velocity = 0 →
        (witnessVoices.get ⟨allocate_voice witnessVoices, hr⟩).allocationIndex ≤
          (witnessVoices.get ⟨k, hk⟩).allocationIndex) ∧
      (∀ k, ∀ hk : k < witnessVoices.length,
        (witnessVoices.get ⟨k, hk⟩).velocity = 0 →
        (witnessVoices.get ⟨k, hk⟩).allocationIndex =
          (witnessVoices.get ⟨allocate_voice witnessVoices, hr⟩).allocationIndex →
        allocate_voice witnessVoices ≤ k) :=
  (allocate_voice_spec_amended witnessVoices (by decide) (by decide)).1
    ⟨0, by norm_num [witnessVoices], by decide⟩

/-! ## Envelopes (`lib/envelopes.h`)

`Trigger` holds a `threshold` and the previous input `last` (the C
constructors leave `last` uninitialized; it is modelled as starting at `0`,
which is what the library's own tests rely on).  The ADSR envelope is a
state machine over the `EnvelopePhase` enum, driven by a rise trigger and a
fall trigger on the velocity. -/

inductive EnvPhase
  | initialPhase
  | attackPhase
  | decayPhase
  | sustainPhase
  | releasePhase
deriving DecidableEq, Repr

/-- The C enum value of an `EnvelopePhase`, for the source's ordered
comparisons (`phase < AttackPhase`, `phase > ReleasePhase`). -/
def EnvPhase.enumVal : EnvPhase → Nat
  | .initialPhase => 0
  | .attackPhase => 1
  | .decayPhase => 2
  | .sustainPhase => 3
  | .releasePhase => 4

/-- Constructor equality on `EnvPhase` in terms of the enum value (lets
`simp`/`norm_num` evaluate the phase dispatch in concrete runs). -/
theorem EnvPhase.eq_enumVal_iff (p q : EnvPhase) : p = q ↔ p.enumVal = q.enumVal := by
  cases p <;> cases q <;> decide

structure TrigState where
  threshold : ℚ
  last : ℚ
deriving DecidableEq, Repr

/-- Whether `RiseTrigger::step(v)` calls its action:
`(last <= threshold) && (v > threshold)`. -/
def riseFires (t : TrigState) (v : ℚ) : Prop :=
  t.last ≤ t.threshold ∧ t.threshold < v

instance (t : TrigState) (v : ℚ) : Decidable (riseFires t v) :=
  inferInstanceAs (Decidable (t.last ≤ t.threshold ∧ t.threshold < v))

/-- Whether `FallTrigger::step(v)` calls its action:
`(last > threshold) && (v <= threshold)`. -/
def fallFires (t : TrigState) (v : ℚ) : Prop :=
  t.threshold < t.last ∧ v ≤ t.threshold

instance (t : TrigState) (v : ℚ) : Decidable (fallFires t v) :=
  inferInstanceAs (Decidable (t.threshold < t.last ∧ v ≤ t.threshold))

structure ADSRState where
  phase : EnvPhase
  value : ℚ
  attack : ℚ
  decay : ℚ
  sustain : ℚ
  release : ℚ
  minValue : ℚ
  maxValue : ℚ
  attackTrig : TrigState
  releaseTrig : TrigState
deriving DecidableEq, Repr

/-- `ADSR(a, d, s, r)`: the `Envelope` constructor sets phase `InitialPhase`,
value `0`, range `[0, 1]`; the `ADSR` constructors attach the triggers
(threshold `0`) and store the four parameters. -/
def ADSR.init (a d s r : ℚ) : ADSRState :=
  { phase := .initialPhase, value := 0, attack := a, decay := d, sustain := s,
    release := r, minValue := 0, maxValue := 1,
    attackTrig := ⟨0, 0⟩, releaseTrig := ⟨0, 0⟩ }

/-- `Generator::setRange`. -/
def ADSR.setRange (st : ADSRState) (lo hi : ℚ) : ADSRState :=
  { st with minValue := lo, maxValue := hi }

/-- `ADSR::step(v)` from `lib/envelopes.h`, with `STEP_TIME` as an explicit
parameter: runs the two triggers, then falls through the attack, decay,
sustain and release blocks exactly as in the source, finally clamping
`value` to `[minValue, maxValue]`.  Returns the output together with the
updated state. -/
def ADSR.step (stepTime : ℚ) (st0 : ADSRState) (v : ℚ) : ℚ × ADSRState :=
  let st1 := { st0 with attackTrig := ⟨st0.attackTrig.threshold, v⟩,
                        releaseTrig := ⟨st0.releaseTrig.threshold, v⟩ }
  let st2 := if riseFires st0.attackTrig v then { st1 with phase := .attackPhase } else st1
  let st3 := if fallFires st0.releaseTrig v then { st2 with phase := .releasePhase } else st2
  if st3.phase.enumVal < EnvPhase.attackPhase.enumVal ∨
      EnvPhase.releasePhase.enumVal < st3.phase.enumVal then
    (st3.minValue, st3)
  else
    let st4 :=
      if st3.phase = .attackPhase then
        let sta := if st3.attack ≤ 0 then { st3 with value := st3.maxValue } else st3
        if sta.value < sta.maxValue then
          { sta with value :=
              sta.value + (stepTime / sta.attack) * (sta.maxValue - sta.minValue) }
        else { sta with phase := .decayPhase }
      else st3
    let st5 :=
      if st4.phase = .decayPhase then
        let std := if st4.decay ≤ 0 then { st4 with value := st4.sustain } else st4
        if std.sustain < std.value then
          { std with value :=
              std.value - (stepTime / std.decay) * (std.maxValue - std.sustain) }
        else { std with phase := .sustainPhase }
      else st4
    let st6 := if st5.phase = .sustainPhase then { st5 with value := st5.sustain } else st5
    let st7 :=
      if st6.phase = .releasePhase then
        let str := if st6.release ≤ 0 then { st6 with value := st6.minValue } else st6
        if str.minValue < str.value then
          { str with value :=
              str.value - (stepTime / str.release) * (str.sustain - str.minValue) }
        else { str with phase := .initialPhase }
      else st6
    let st8 := if st7.value < st7.minValue then { st7 with value := st7.minValue } else st7
    let st9 := if st8.maxValue < st8.value then { st8 with value := st8.maxValue } else st8
    (st9.value, st9)

/-- The output sequence of `ADSR::step` over a list of velocities. -/
def ADSR.run (stepTime : ℚ) (st : ADSRState) : List ℚ → List ℚ
  | [] => []
  | v :: rest =>
    let out := ADSR.step stepTime st v
    out.1 :: ADSR.run stepTime out.2 rest

/-- The library's own test (`ADSR::test` in `lib/envelopes.h`, at
`STEP_TIME = 1/64`) reproduced on the embedding, as evidence of
faithfulness: `ADSR(2Δ, 2Δ, 1.0, 2Δ)` on range `[0, 2]`. -/
theorem ADSR_source_selftest :
    ADSR.run (1/64) (ADSR.setRange (ADSR.init (2 * (1/64)) (2 * (1/64)) 1 (2 * (1/64))) 0 2)
        [0, 0, 1, 1, 1, 1, 1, 0, 0, 0] =
      [0, 0, 1, 2, 3/2, 1, 1, 1/2, 0, 0] := by
  norm_num [ADSR.run, ADSR.step, ADSR.init, ADSR.setRange, riseFires, fallFires,
    EnvPhase.eq_enumVal_iff, EnvPhase.enumVal]

/-- C4 counterexample: `ADSR(0.1, 0.1, 0.5, 0.1)` at step time `0.025` on
range `[0, 2]` does *not* produce the claimed sequence: with
`STEP_TIME/attack = 1/4` the attack climbs by `0.5` per step, so the very
first output is `0.5`, not `1.0`. -/
theorem adsr_scenario_cex :
    ADSR.run (1/40) (ADSR.setRange (ADSR.init (1/10) (1/10) (1/2) (1/10)) 0 2)
        [1, 1, 1, 1, 0, 0] ≠ [1, 2, 3/2, 1, 1/2, 0] := by
  norm_num [ADSR.run, ADSR.step, ADSR.init, ADSR.setRange, riseFires, fallFires,
    EnvPhase.eq_enumVal_iff, EnvPhase.enumVal]

/-- C4 amended: the actual output sequence for that scenario is
`[0.5, 1.0, 1.5, 2.0, 1.875, 1.75]` (four attack steps of `+0.5` reaching
the peak, then two release steps of `-0.125 = (0.025/0.1)*(0.5-0)`). -/
theorem adsr_scenario_actual :
    ADSR.run (1/40) (ADSR.setRange (ADSR.init (1/10) (1/10) (1/2) (1/10)) 0 2)
        [1, 1, 1, 1, 0, 0] = [1/2, 1, 3/2, 2, 15/8, 7/4] := by
  norm_num [ADSR.run, ADSR.step, ADSR.init, ADSR.setRange, riseFires, fallFires,
    EnvPhase.eq_enumVal_iff, EnvPhase.enumVal]

/-! ## The delay line (`lib/signals.h`: `class Delay`)

The flag bitmask `SampleFlags` is modelled as a record of the individual
bits; the source only ever tests single bits (`(flags & F) == F`). -/

structure SampleFlags where
  unitPhase : Bool
  unitSeconds : Bool
  unitSamples : Bool
  modeInterpolated : Bool
  modeAligned : Bool
  opSet : Bool
  opAdd : Bool
  opMultiply : Bool
deriving DecidableEq, Repr

/-- The state of a `Delay`: the sample buffer (`NULL` is the empty list),
its length, the delay in seconds and in (fractional) samples, the
fractional-sample `remainder`, the pending feedback contribution, the
feedback coefficient, and the insertion index.  The replaceable
`feedbackOperation` is fixed to its default (`v * feedback`), which no
property below replaces. -/
structure DelayState where
  buffer : List ℚ
  bufferLen : Nat
  seconds : ℚ
  samples : ℚ
  remainder : ℚ
  nextFeedback : ℚ
  feedback : ℚ
  insertIndex : Nat
deriving DecidableEq, Repr

/-- `Delay::_init()`. -/
def Delay.init : DelayState :=
  { buffer := [], bufferLen := 0, seconds := 0, samples := 0, remainder := 0,
    nextFeedback := 0, feedback := 0, insertIndex := 0 }

/-- Read `buffer[i]` (a C array read; out-of-bounds access is undefined
behavior in the source and is modelled as reading `0`). -/
def DelayState.getBuf (st : DelayState) (i : ℤ) : ℚ :=
  if h : 0 ≤ i ∧ i.toNat < st.buffer.length then st.buffer.get ⟨i.toNat, h.2⟩ else 0

/-- Write `buffer[i] = x` (out-of-bounds writes, undefined in the source,
are modelled as no-ops). -/
def DelayState.setBuf (st : DelayState) (i : ℤ) (x : ℚ) : DelayState :=
  if 0 ≤ i then { st with buffer := st.buffer.set i.toNat x } else st

/-- `Delay::sampleAtLocation`.  Note that for the seconds/phase units the
source computes and clamps a `phase` variable but then uses the raw
`location` in the final formula, so the clamped value is dead; the
translation preserves this faithfully. -/
def sampleAtLocation (st : DelayState) (location : ℚ) (flags : SampleFlags) : ℚ :=
  let sample :=
    if flags.unitSamples then
      fmodQ ((st.insertIndex : ℚ) + st.remainder + location) st.samples
    else
      let phase0 := if flags.unitSeconds then location / st.seconds
        else if flags.unitPhase then location else 0
      let phase1 := if phase0 < 0 then 0 else phase0
      let _phase2 := if phase1 > 1 then 1 else phase1
      fmodQ ((st.insertIndex : ℚ) + st.remainder + location * (st.samples - 1)) st.samples
  if flags.modeAligned then roundQ sample else sample

/-- `Delay::tapIn`. -/
def tapIn (st : DelayState) (location value : ℚ) (flags : SampleFlags) : DelayState :=
  if st.bufferLen = 0 ∨ value = 0 then st
  else
    let sample := sampleAtLocation st location flags
    let prevIndex0 : ℤ := ⌊sample⌋
    let prevIndex : ℤ :=
      if prevIndex0 < 0 then prevIndex0 + (st.bufferLen : ℤ) else prevIndex0
    let nextIndex : ℤ := Int.tmod ⌈sample⌉ (st.bufferLen : ℤ)
    if nextIndex = prevIndex then
      if flags.opAdd then st.setBuf prevIndex (st.getBuf prevIndex + value)
      else if flags.opMultiply then st.setBuf prevIndex (st.getBuf prevIndex * value)
      else if flags.opSet then st.setBuf prevIndex value
      else st
    else
      let mix := sample - ⌊sample⌋
      if flags.opAdd then
        let st1 := st.setBuf prevIndex (st.getBuf prevIndex + value * (1 - mix))
        st1.setBuf nextIndex (st1.getBuf nextIndex + value * mix)
      else if flags.opMultiply then
        let st1 := st.setBuf prevIndex (st.getBuf prevIndex * (value * (1 - mix)))
        st1.setBuf nextIndex (st1.getBuf nextIndex * (value * mix))
      else if flags.opSet then
        let st1 := st.setBuf prevIndex (value * (1 - mix))
        st1.setBuf nextIndex (value * mix)
      else st

/-- `Delay::tapOut`. -/
def tapOut (st : DelayState) (location : ℚ) (flags : SampleFlags) : ℚ :=
  if st.bufferLen = 0 then 0
  else
    let sample := sampleAtLocation st location flags
    let prevIndex0 : ℤ := ⌊sample⌋
    let prevIndex : ℤ :=
      if prevIndex0 < 0 then prevIndex0 + (st.bufferLen : ℤ) else prevIndex0
    let nextIndex : ℤ := Int.tmod ⌈sample⌉ (st.bufferLen : ℤ)
    if nextIndex = prevIndex then st.getBuf prevIndex
    else
      let mix := sample - ⌊sample⌋
      st.getBuf prevIndex * (1 - mix) + st.getBuf nextIndex * mix

/-- The crossfade loop at the end of `Delay::setDelay`: `rem` iterations
remain, `k` is the number already done (so the head pointers are at offset
`k` and the tail pointers at offsets `len - 1 - k`), `taper` is the current
fade factor. -/
def crossfadeLoop (src : List ℚ) (oldLen newLen nonOverlapLen : Nat) (taperStep : ℚ) :
    Nat → Nat → ℚ → List ℚ → List ℚ
  | 0, _, _, dst => dst
  | rem + 1, k, taper, dst =>
    let dst1 := dst.set k (dst.getD k 0 + src.getD k 0 * taper)
    let dst2 := dst1.set (newLen - 1 - k)
      (dst1.getD (newLen - 1 - k) 0 + src.getD (oldLen - 1 - k) 0 * taper)
    let taper2 := if nonOverlapLen ≤ k + 1 then taper - taperStep else taper
    crossfadeLoop src oldLen newLen nonOverlapLen taperStep rem (k + 1) taper2 dst2

/-- `Delay::setDelay` from `lib/signals.h` with `STEP_TIME` as an explicit
parameter: converts the length per the unit flags, optionally aligns it,
clears the buffer for a non-positive length, and otherwise resizes with the
re-align + crossfade scheme of the source. -/
def setDelay (stepTime : ℚ) (st0 : DelayState) (length : ℚ) (flags : SampleFlags) :
    DelayState :=
  let samples1 := if flags.unitSamples then length else st0.samples
  let seconds1 := if flags.unitSamples then samples1 * stepTime else st0.seconds
  let seconds2 := if flags.unitSeconds then length else seconds1
  let samples2 := if flags.unitSeconds then seconds2 / stepTime else samples1
  let samples3 := if flags.modeAligned then roundQ samples2 else samples2
  if ¬ (samples3 > 0) then
    { st0 with buffer := [], bufferLen := 0, insertIndex := 0,
               samples := 0, remainder := 0, seconds := 0 }
  else
    let newBufferLen : Nat := (⌈samples3⌉).toNat
    let remainder1 := fmodQ (1 - ((newBufferLen : ℚ) - samples3)) 1
    let stA := { st0 with samples := samples3, seconds := seconds2,
                          remainder := remainder1 }
    if newBufferLen = stA.bufferLen then stA
    else
      let newBuffer := List.replicate newBufferLen (0 : ℚ)
      if stA.buffer.isEmpty then
        { stA with buffer := newBuffer, bufferLen := newBufferLen, insertIndex := 0 }
      else
        let aligned := stA.buffer.drop stA.insertIndex ++ stA.buffer.take stA.insertIndex
        let oldLen := stA.bufferLen
        let growing := decide (oldLen < newBufferLen)
        let overlapRaw : ℤ := (newBufferLen : ℤ) - 2 * ((newBufferLen : ℤ) - (oldLen : ℤ))
        let overlap : ℤ :=
          if growing then (if overlapRaw < 0 then 0 else overlapRaw)
          else (newBufferLen : ℤ)
        let nonOverlapLen : Nat := if growing then ((oldLen : ℤ) - overlap).toNat else 0
        let taperStep : ℚ :=
          if growing then 1 / ((overlap : ℚ) + 1)
          else if 1 < overlap then 1 / ((overlap : ℚ) - 1) else 0
        let count := min oldLen newBufferLen
        let faded := crossfadeLoop aligned oldLen newBufferLen nonOverlapLen taperStep
          count 0 1 newBuffer
        { stA with buffer := faded, bufferLen := newBufferLen, insertIndex := 0 }

/-- `Delay::step` with the default feedback operation (`v * feedback`):
takes the input sample delivered by `Processor::step()` (the connected
source's sample, or `0` with no source) and returns the output sample and
the updated state. -/
def Delay.step (st : DelayState) (inSample : ℚ) : ℚ × DelayState :=
  if st.buffer.isEmpty ∨ st.bufferLen = 0 then (inSample, st)
  else
    let curr := st.getBuf (st.insertIndex : ℤ)
    let nextIndex := (st.insertIndex + 1) % st.bufferLen
    let next := st.getBuf (nextIndex : ℤ)
    let out := curr + (next - curr) * st.remainder
    let fedIn := inSample + (st.nextFeedback + curr * (1 - st.remainder)) * st.feedback
    let st1 := { st with nextFeedback := next * st.remainder }
    let st2 := st1.setBuf (st.insertIndex : ℤ) fedIn
    (out, { st2 with insertIndex := nextIndex })

theorem roundQ_nonpos {q : ℚ} (h : q ≤ 0) : roundQ q ≤ 0 := by
  unfold roundQ
  by_cases hq : q < 0
  · rw [if_pos hq]
    have h1 : (0 : ℚ) ≤ -q + 1/2 := by linarith
    have h2 : (0 : ℤ) ≤ ⌊-q + 1/2⌋ := Int.floor_nonneg.mpr (by linarith)
    have : (0 : ℚ) ≤ ((⌊-q + 1/2⌋ : ℤ) : ℚ) := by exact_mod_cast h2
    linarith
  · rw [if_neg hq]
    have hq0 : q = 0 := le_antisymm h (not_lt.mp hq)
    subst hq0
    norm_num

/-- C10: a `Delay` whose buffer is unallocated acts as a wire: `step`
returns the input sample (in particular, a connected source's sample passes
through unmodified) and leaves the state untouched; and `setDelay` with a
non-positive length in either time unit produces exactly that unallocated
state. -/
theorem delay_empty_buffer_wire :
    (∀ st : DelayState, ∀ x : ℚ, st.buffer = [] →
      (Delay.step st x).1 = x ∧ (Delay.step st x).2 = st) ∧
    (∀ stepTime len : ℚ, ∀ st : DelayState, ∀ flags : SampleFlags,
      0 < stepTime → len ≤ 0 →
      (flags.unitSamples = true ∨ flags.unitSeconds = true) →
      (setDelay stepTime st len flags).buffer = [] ∧
        (setDelay stepTime st len flags).bufferLen = 0) := by
  constructor
  · intro st x hb
    constructor <;> simp [Delay.step, hb]
  · intro stepTime len st flags hstep hlen hunit
    have hsam2 : (if flags.unitSeconds then
        (if flags.unitSeconds then len
          else if flags.unitSamples then (if flags.unitSamples then len else st.samples) * stepTime
          else st.seconds) / stepTime
        else if flags.unitSamples then len else st.samples) ≤ 0 := by
      by_cases hsec : flags.unitSeconds
      · simp only [hsec, if_true]
        exact div_nonpos_of_nonpos_of_nonneg hlen (le_of_lt hstep)
      · rcases hunit with hsmp | hsec'
        · simp only [hsec, if_false, hsmp, if_true]
          exact hlen
        · exact absurd hsec' hsec
    have hkey : ¬ ((if flags.modeAligned then
        roundQ (if flags.unitSeconds then
          (if flags.unitSeconds then len
            else if flags.unitSamples then (if flags.unitSamples then len else st.samples) * stepTime
            else st.seconds) / stepTime
          else if flags.unitSamples then len else st.samples)
        else (if flags.unitSeconds then
          (if flags.unitSeconds then len
            else if flags.unitSamples then (if flags.unitSamples then len else st.samples) * stepTime
            else st.seconds) / stepTime
          else if flags.unitSamples then len else st.samples)) > 0) := by
      by_cases hal : flags.modeAligned
      · simp only [hal, if_true]
        exact not_lt.mpr (roundQ_nonpos hsam2)
      · simp only [hal, if_false]
        exact not_lt.mpr hsam2
    unfold setDelay
    rw [if_pos hkey]
    exact ⟨rfl, rfl⟩

theorem delay_empty_buffer_wire_witness :
    ((Delay.step Delay.init 7).1 = 7 ∧ (Delay.step Delay.init 7).2 = Delay.init) ∧
      ((setDelay (1/64) Delay.init 0 ⟨false, true, false, true, false, false, false, false⟩).buffer = [] ∧
        (setDelay (1/64) Delay.init 0 ⟨false, true, false, true, false, false, false, false⟩).bufferLen = 0) :=
  ⟨delay_empty_buffer_wire.1 Delay.init 7 rfl,
    delay_empty_buffer_wire.2 (1/64) 0 Delay.init ⟨false, true, false, true, false, false, false, false⟩
      (by norm_num) (le_refl 0) (Or.inr rfl)⟩

theorem setBuf_bufferLen (st : DelayState) (i : ℤ) (x : ℚ) :
    (st.setBuf i x).bufferLen = st.bufferLen := by
  unfold DelayState.setBuf; split <;> rfl

theorem sampleAtLocation_setBuf (st : DelayState) (i : ℤ) (x : ℚ)
    (location : ℚ) (flags : SampleFlags) :
    sampleAtLocation (st.setBuf i x) location flags =
      sampleAtLocation st location flags := by
  unfold DelayState.setBuf; split <;> rfl

theorem roundQ_exists_int (q : ℚ) : ∃ n : ℤ, roundQ q = (n : ℚ) := by
  unfold roundQ; split
  · exact ⟨-⌊-q + 1/2⌋, by push_cast; ring⟩
  · exact ⟨⌊q + 1/2⌋, rfl⟩

theorem sampleAtLocation_int (st : DelayState) (location : ℚ)
    (flags : SampleFlags) (hal : flags.modeAligned = true) :
    ∃ m : ℤ, sampleAtLocation st location flags = (m : ℚ) := by
  simp only [sampleAtLocation, hal, if_true]
  exact roundQ_exists_int _

theorem getBuf_setBuf_self (st : DelayState) (m : ℤ) (x : ℚ)
    (h0 : 0 ≤ m) (hlt : m.toNat < st.buffer.length) :
    (st.setBuf m x).getBuf m = x := by
  unfold DelayState.setBuf DelayState.getBuf
  rw [if_pos h0]
  have hlen : m.toNat < (st.buffer.set m.toNat x).length := by
    rw [List.length_set]; exact hlt
  rw [dif_pos ⟨h0, hlen⟩]
  exact List.get_set_eq hlen

/-- C6 amended: for a well-formed `Delay` with a non-empty buffer, a value
`v ≠ 0`, and a location (in any of the three units) whose aligned
resolution lands inside the buffer, `tapOut(location, flags)` immediately
after `tapIn(location, v, flags)` with `SampleModeAligned` and
`SampleOperationSet` (and neither add nor multiply) returns exactly `v`. -/
theorem tap_round_trip_amended (st : DelayState) (location v : ℚ)
    (flags : SampleFlags)
    (hwf : st.bufferLen = st.buffer.length)
    (hn : st.bufferLen ≠ 0)
    (hv : v ≠ 0)
    (hal : flags.modeAligned = true)
    (hset : flags.opSet = true) (hadd : flags.opAdd = false)
    (hmul : flags.opMultiply = false)
    (hlo : 0 ≤ sampleAtLocation st location flags)
    (hhi : sampleAtLocation st location flags < (st.bufferLen : ℚ)) :
    tapOut (tapIn st location v flags) location flags = v := by
  obtain ⟨m, hm⟩ := sampleAtLocation_int st location flags hal
  rw [hm] at hlo hhi
  have hm0 : 0 ≤ m := by exact_mod_cast hlo
  have hmlt : m < (st.bufferLen : ℤ) := by exact_mod_cast hhi
  have hfl : ⌊sampleAtLocation st location flags⌋ = m := by
    rw [hm]; exact Int.floor_intCast m
  have hcl : ⌈sampleAtLocation st location flags⌉ = m := by
    rw [hm]; exact Int.ceil_intCast m
  have hcond : ¬ (st.bufferLen = 0 ∨ v = 0) := by push_neg; exact ⟨hn, hv⟩
  have htmod : Int.tmod m (st.bufferLen : ℤ) = m := Int.tmod_eq_of_lt hm0 hmlt
  have htapin : tapIn st location v flags = st.setBuf m v := by
    unfold tapIn
    rw [if_neg hcond]
    simp only [hfl, hcl, htmod, if_neg (not_lt.mpr hm0), if_pos rfl,
      hadd, hmul, hset]
    simp
  rw [htapin]
  have hsame : sampleAtLocation (st.setBuf m v) location flags = (m : ℚ) := by
    rw [sampleAtLocation_setBuf]; exact hm
  have hfl' : ⌊sampleAtLocation (st.setBuf m v) location flags⌋ = m := by
    rw [hsame]; exact Int.floor_intCast m
  have hcl' : ⌈sampleAtLocation (st.setBuf m v) location flags⌉ = m := by
    rw [hsame]; exact Int.ceil_intCast m
  have hlen' : (st.setBuf m v).bufferLen = st.bufferLen := setBuf_bufferLen st m v
  have hcond' : ¬ (st.setBuf m v).bufferLen = 0 := by rw [hlen']; exact hn
  have htmod' : Int.tmod m ((st.setBuf m v).bufferLen : ℤ) = m := by
    rw [hlen']; exact htmod
  unfold tapOut
  rw [if_neg hcond']
  simp only [hfl', hcl', htmod', if_neg (not_lt.mpr hm0), if_pos rfl]
  exact getBuf_setBuf_self st m v hm0 (by omega)

/-- Flags `SampleUnitSamples | SampleModeAligned` (used to size a buffer to
a whole number of samples). -/
def cexFlagsResize : SampleFlags := ⟨false, false, true, false, true, false, false, false⟩

/-- Flags `SampleUnitPhase | SampleModeAligned | SampleOperationSet`. -/
def cexFlagsTap : SampleFlags := ⟨true, false, false, false, true, true, false, false⟩

/-- A reachable two-sample aligned delay holding `5` at the tap location:
a fresh `Delay`, given a 2-sample aligned delay with `setDelay`, with `5`
tapped in (set) at location `0`. -/
def cexDelay : DelayState :=
  tapIn (setDelay (1/64) Delay.init 2 cexFlagsResize) 0 5 cexFlagsTap

set_option maxRecDepth 8000 in
theorem cexDelay_eq : cexDelay = ⟨[5, 0], 2, 1/32, 2, 0, 0, 0, 0⟩ := by
  have h1 : setDelay (1/64) Delay.init 2 cexFlagsResize =
      ⟨[0, 0], 2, 1/32, 2, 0, 0, 0, 0⟩ := by
    norm_num [setDelay, Delay.init, cexFlagsResize, roundQ, fmodQ, truncQ,
      show Int.toNat 2 = 2 from rfl, List.replicate, Int.floor_one, Int.ceil_one]
  rw [cexDelay, h1]
  norm_num [tapIn, sampleAtLocation, cexFlagsTap, fmodQ, truncQ, roundQ,
    DelayState.setBuf, DelayState.getBuf]

set_option maxRecDepth 8000 in
/-- C6 counterexample: tapping in the value `v = 0` is a no-op (`tapIn`
returns early when `value == 0.0`), so `tapOut` immediately afterwards at
the same aligned location returns the `5` already stored there, not the
`v = 0` that was tapped in with the set operation. -/
theorem tap_round_trip_zero_cex :
    tapIn cexDelay 0 0 cexFlagsTap = cexDelay ∧
      tapOut (tapIn cexDelay 0 0 cexFlagsTap) 0 cexFlagsTap = 5 ∧
      tapOut (tapIn cexDelay 0 0 cexFlagsTap) 0 cexFlagsTap ≠ 0 := by
  have hno : tapIn cexDelay 0 0 cexFlagsTap = cexDelay := by simp [tapIn]
  have hout : tapOut cexDelay 0 cexFlagsTap = 5 := by
    rw [cexDelay_eq]
    norm_num [tapOut, sampleAtLocation, cexFlagsTap, fmodQ, truncQ, roundQ,
      DelayState.getBuf]
  exact ⟨hno, by rw [hno, hout], by rw [hno, hout]; norm_num⟩

set_option maxRecDepth 8000 in
theorem tap_round_trip_amended_witness :
    tapOut (tapIn (⟨[5, 0], 2, 1/32, 2, 0, 0, 0, 0⟩ : DelayState) 0 7 cexFlagsTap)
        0 cexFlagsTap = 7 :=
  tap_round_trip_amended ⟨[5, 0], 2, 1/32, 2, 0, 0, 0, 0⟩ 0 7 cexFlagsTap
    rfl (by norm_num) (by norm_num) rfl rfl rfl rfl
    (by norm_num [sampleAtLocation, cexFlagsTap, fmodQ, truncQ, roundQ])
    (by norm_num [sampleAtLocation, cexFlagsTap, fmodQ, truncQ, roundQ])

/-! ## The rectifier (`lib/signals.h`: `Rectifier::step`)

`Rectifier::step` pulls a sample `s` from its source (here the parameter)
and, when `s` is outside `[minValue, maxValue]`, computes the result of
repeatedly reflecting it at the bounds in closed form: the number of flips
is `floor(delta/range)` and its parity selects the final position. -/

/-- The fold-back computation of `Rectifier::step` (the source's local
variables `range`, `delta` and `flips` are inlined). -/
def rectifierStep (vmin vmax s : ℚ) : ℚ :=
  if vmax - vmin > 0 then
    if s < vmin then
      if Int.tmod ⌊(vmin - s) / (vmax - vmin)⌋ 2 = 0 then
        vmin + fmodQ (vmin - s) (vmax - vmin)
      else vmax - fmodQ (vmin - s) (vmax - vmin)
    else if s > vmax then
      if Int.tmod ⌊(s - vmax) / (vmax - vmin)⌋ 2 = 0 then
        vmax - fmodQ (s - vmax) (vmax - vmin)
      else vmin + fmodQ (s - vmax) (vmax - vmin)
    else s
  else s

/-- Modelled from the spec: the reference fold-back algorithm, which
iteratively reflects the sample across whichever bound it exceeds until it
lies within `[vmin, vmax]`; `fuel` bounds the number of reflections. -/
def reflectFold (vmin vmax : ℚ) : Nat → ℚ → ℚ
  | 0, s => s
  | fuel + 1, s =>
    if s < vmin then reflectFold vmin vmax fuel (vmin + (vmin - s))
    else if s > vmax then reflectFold vmin vmax fuel (vmax - (s - vmax))
    else s

/-- An upper bound on the number of reflections needed to bring `s` inside
`[vmin, vmax]`. -/
def reflectFuel (vmin vmax s : ℚ) : Nat :=
  (⌈(vmin - s) / (vmax - vmin)⌉.toNat + ⌈(s - vmax) / (vmax - vmin)⌉.toNat) + 1

theorem fmodQ_of_nonneg {x y : ℚ} (hx : 0 ≤ x) (hy : 0 < y) :
    fmodQ x y = x - y * (⌊x / y⌋ : ℚ) := by
  unfold fmodQ
  rw [truncQ_of_nonneg (div_nonneg hx (le_of_lt hy))]

theorem fmodQ_sub_self {x y : ℚ} (hy : 0 < y) (hxy : y ≤ x) :
    fmodQ (x - y) y = fmodQ x y := by
  have hx : 0 ≤ x := le_trans (le_of_lt hy) hxy
  have hx' : 0 ≤ x - y := sub_nonneg.mpr hxy
  rw [fmodQ_of_nonneg hx hy, fmodQ_of_nonneg hx' hy]
  have hq : (x - y) / y = x / y - 1 := by
    field_simp
  rw [hq, Int.floor_sub_one]
  push_cast
  ring

theorem rectifierStep_within (vmin vmax s : ℚ) (h1 : vmin ≤ s) (h2 : s ≤ vmax) :
    rectifierStep vmin vmax s = s := by
  unfold rectifierStep
  split_ifs <;> first | rfl | linarith

theorem rectifierStep_flip_low (vmin vmax s : ℚ) (h : vmin < vmax) (hs : s < vmin) :
    rectifierStep vmin vmax (vmin + (vmin - s)) = rectifierStep vmin vmax s := by
  have hr : 0 < vmax - vmin := sub_pos.mpr h
  have hd : 0 < vmin - s := sub_pos.mpr hs
  have hRHS : rectifierStep vmin vmax s =
      (if Int.tmod ⌊(vmin - s) / (vmax - vmin)⌋ 2 = 0 then
        vmin + fmodQ (vmin - s) (vmax - vmin)
      else vmax - fmodQ (vmin - s) (vmax - vmin)) := by
    unfold rectifierStep
    rw [if_pos hr, if_pos hs]
  rcases lt_trichotomy (vmin - s) (vmax - vmin) with hc | hc | hc
  · -- one reflection lands inside
    have hin1 : vmin ≤ vmin + (vmin - s) := by linarith
    have hin2 : vmin + (vmin - s) ≤ vmax := by linarith
    rw [rectifierStep_within _ _ _ hin1 hin2, hRHS]
    have hfl : ⌊(vmin - s) / (vmax - vmin)⌋ = 0 := by
      rw [Int.floor_eq_zero_iff]
      constructor
      · exact div_nonneg (le_of_lt hd) (le_of_lt hr)
      · exact (div_lt_one hr).mpr hc
    rw [hfl]
    norm_num [fmodQ_of_nonneg (le_of_lt hd) hr, hfl]
  · -- the reflection lands exactly on the upper bound
    have hvx : vmin + (vmin - s) = vmax := by linarith
    have hin1 : vmin ≤ vmin + (vmin - s) := by linarith
    have hin2 : vmin + (vmin - s) ≤ vmax := by linarith
    rw [rectifierStep_within _ _ _ hin1 hin2, hRHS]
    have hq : (vmin - s) / (vmax - vmin) = 1 := by
      rw [hc]; exact div_self (ne_of_gt hr)
    have hfl : ⌊(vmin - s) / (vmax - vmin)⌋ = 1 := by rw [hq]; norm_num
    have hpar : ¬ Int.tmod (1 : ℤ) 2 = 0 := by decide
    rw [hfl, if_neg hpar, fmodQ_of_nonneg (le_of_lt hd) hr, hq, Int.floor_one]
    push_cast
    linarith
  · -- still above the upper bound after one reflection
    have hs' : vmin + (vmin - s) > vmax := by linarith
    have hns' : ¬ vmin + (vmin - s) < vmin := by linarith
    have hLHS : rectifierStep vmin vmax (vmin + (vmin - s)) =
        (if Int.tmod ⌊(vmin + (vmin - s) - vmax) / (vmax - vmin)⌋ 2 = 0 then
          vmax - fmodQ (vmin + (vmin - s) - vmax) (vmax - vmin)
        else vmin + fmodQ (vmin + (vmin - s) - vmax) (vmax - vmin)) := by
      unfold rectifierStep
      rw [if_pos hr, if_neg hns', if_pos hs']
    have hdelta : vmin + (vmin - s) - vmax = (vmin - s) - (vmax - vmin) := by ring
    have hfl : ⌊((vmin - s) - (vmax - vmin)) / (vmax - vmin)⌋ =
        ⌊(vmin - s) / (vmax - vmin)⌋ - 1 := by
      have hq : ((vmin - s) - (vmax - vmin)) / (vmax - vmin) =
          (vmin - s) / (vmax - vmin) - 1 := by field_simp
      rw [hq, Int.floor_sub_one]
    have hfm : fmodQ ((vmin - s) - (vmax - vmin)) (vmax - vmin) =
        fmodQ (vmin - s) (vmax - vmin) := fmodQ_sub_self hr (le_of_lt hc)
    have hge1 : 1 ≤ ⌊(vmin - s) / (vmax - vmin)⌋ := by
      rw [Int.le_floor]
      push_cast
      exact (one_le_div hr).mpr (le_of_lt hc)
    rw [hLHS, hRHS, hdelta, hfl, hfm]
    have h2 : (0 : ℤ) ≤ 2 := by norm_num
    by_cases hpar : Int.tmod ⌊(vmin - s) / (vmax - vmin)⌋ 2 = 0
    · have hpar' : ¬ Int.tmod (⌊(vmin - s) / (vmax - vmin)⌋ - 1) 2 = 0 := by
        rw [Int.tmod_eq_emod (by omega) h2] at hpar ⊢
        omega
      rw [if_neg hpar', if_pos hpar]
    · have hpar' : Int.tmod (⌊(vmin - s) / (vmax - vmin)⌋ - 1) 2 = 0 := by
        rw [Int.tmod_eq_emod (by omega) h2] at hpar ⊢
        omega
      rw [if_pos hpar', if_neg hpar]

theorem rectifierStep_flip_high (vmin vmax s : ℚ) (h : vmin < vmax) (hs : s > vmax) :
    rectifierStep vmin vmax (vmax - (s - vmax)) = rectifierStep vmin vmax s := by
  have hr : 0 < vmax - vmin := sub_pos.mpr h
  have hd : 0 < s - vmax := sub_pos.mpr hs
  have hRHS : rectifierStep vmin vmax s =
      (if Int.tmod ⌊(s - vmax) / (vmax - vmin)⌋ 2 = 0 then
        vmax - fmodQ (s - vmax) (vmax - vmin)
      else vmin + fmodQ (s - vmax) (vmax - vmin)) := by
    unfold rectifierStep
    rw [if_pos hr, if_neg (by linarith : ¬ s < vmin), if_pos hs]
  rcases lt_trichotomy (s - vmax) (vmax - vmin) with hc | hc | hc
  · have hin1 : vmin ≤ vmax - (s - vmax) := by linarith
    have hin2 : vmax - (s - vmax) ≤ vmax := by linarith
    rw [rectifierStep_within _ _ _ hin1 hin2, hRHS]
    have hfl : ⌊(s - vmax) / (vmax - vmin)⌋ = 0 := by
      rw [Int.floor_eq_zero_iff]
      constructor
      · exact div_nonneg (le_of_lt hd) (le_of_lt hr)
      · exact (div_lt_one hr).mpr hc
    rw [hfl]
    norm_num [fmodQ_of_nonneg (le_of_lt hd) hr, hfl]
  · have hin1 : vmin ≤ vmax - (s - vmax) := by linarith
    have hin2 : vmax - (s - vmax) ≤ vmax := by linarith
    rw [rectifierStep_within _ _ _ hin1 hin2, hRHS]
    have hq : (s - vmax) / (vmax - vmin) = 1 := by
      rw [hc]; exact div_self (ne_of_gt hr)
    have hfl : ⌊(s - vmax) / (vmax - vmin)⌋ = 1 := by rw [hq]; norm_num
    have hpar : ¬ Int.tmod (1 : ℤ) 2 = 0 := by decide
    rw [hfl, if_neg hpar, fmodQ_of_nonneg (le_of_lt hd) hr, hq, Int.floor_one]
    push_cast
    linarith
  · have hs' : vmax - (s - vmax) < vmin := by linarith
    have hLHS : rectifierStep vmin vmax (vmax - (s - vmax)) =
        (if Int.tmod ⌊(vmin - (vmax - (s - vmax))) / (vmax - vmin)⌋ 2 = 0 then
          vmin + fmodQ (vmin - (vmax - (s - vmax))) (vmax - vmin)
        else vmax - fmodQ (vmin - (vmax - (s - vmax))) (vmax - vmin)) := by
      unfold rectifierStep
      rw [if_pos hr, if_pos hs']
    have hdelta : vmin - (vmax - (s - vmax)) = (s - vmax) - (vmax - vmin) := by ring
    have hfl : ⌊((s - vmax) - (vmax - vmin)) / (vmax - vmin)⌋ =
        ⌊(s - vmax) / (vmax - vmin)⌋ - 1 := by
      have hq : ((s - vmax) - (vmax - vmin)) / (vmax - vmin) =
          (s - vmax) / (vmax - vmin) - 1 := by field_simp
      rw [hq, Int.floor_sub_one]
    have hfm : fmodQ ((s - vmax) - (vmax - vmin)) (vmax - vmin) =
        fmodQ (s - vmax) (vmax - vmin) := fmodQ_sub_self hr (le_of_lt hc)
    have hge1 : 1 ≤ ⌊(s - vmax) / (vmax - vmin)⌋ := by
      rw [Int.le_floor]
      push_cast
      exact (one_le_div hr).mpr (le_of_lt hc)
    rw [hLHS, hRHS, hdelta, hfl, hfm]
    have h2 : (0 : ℤ) ≤ 2 := by norm_num
    by_cases hpar : Int.tmod ⌊(s - vmax) / (vmax - vmin)⌋ 2 = 0
    · have hpar' : ¬ Int.tmod (⌊(s - vmax) / (vmax - vmin)⌋ - 1) 2 = 0 := by
        rw [Int.tmod_eq_emod (by omega) h2] at hpar ⊢
        omega
      rw [if_neg hpar', if_pos hpar]
    · have hpar' : Int.tmod (⌊(s - vmax) / (vmax - vmin)⌋ - 1) 2 = 0 := by
        rw [Int.tmod_eq_emod (by omega) h2] at hpar ⊢
        omega
      rw [if_pos hpar', if_neg hpar]

theorem reflectFuel_flip_low (vmin vmax s : ℚ) (h : vmin < vmax) (hs : s < vmin) :
    reflectFuel vmin vmax (vmin + (vmin - s)) + 1 = reflectFuel vmin vmax s := by
  have hr : 0 < vmax - vmin := sub_pos.mpr h
  have hd : 0 < vmin - s := sub_pos.mpr hs
  unfold reflectFuel
  have h1 : ⌈(vmin - (vmin + (vmin - s))) / (vmax - vmin)⌉ ≤ 0 := by
    apply Int.ceil_le.mpr
    push_cast
    apply div_nonpos_of_nonpos_of_nonneg _ (le_of_lt hr)
    linarith
  have h2 : ⌈(s - vmax) / (vmax - vmin)⌉ ≤ 0 := by
    apply Int.ceil_le.mpr
    push_cast
    apply div_nonpos_of_nonpos_of_nonneg _ (le_of_lt hr)
    linarith
  have h3 : (vmin + (vmin - s) - vmax) / (vmax - vmin) =
      (vmin - s) / (vmax - vmin) - 1 := by field_simp; ring
  have h4 : ⌈(vmin + (vmin - s) - vmax) / (vmax - vmin)⌉ =
      ⌈(vmin - s) / (vmax - vmin)⌉ - 1 := by rw [h3, Int.ceil_sub_one]
  have h5 : 1 ≤ ⌈(vmin - s) / (vmax - vmin)⌉ := by
    apply Int.ceil_pos.mpr
    exact div_pos hd hr
  omega

theorem reflectFuel_flip_high (vmin vmax s : ℚ) (h : vmin < vmax) (hs : s > vmax) :
    reflectFuel vmin vmax (vmax - (s - vmax)) + 1 = reflectFuel vmin vmax s := by
  have hr : 0 < vmax - vmin := sub_pos.mpr h
  have hd : 0 < s - vmax := sub_pos.mpr hs
  unfold reflectFuel
  have h1 : ⌈(vmax - (s - vmax) - vmax) / (vmax - vmin)⌉ ≤ 0 := by
    apply Int.ceil_le.mpr
    push_cast
    apply div_nonpos_of_nonpos_of_nonneg _ (le_of_lt hr)
    linarith
  have h2 : ⌈(vmin - s) / (vmax - vmin)⌉ ≤ 0 := by
    apply Int.ceil_le.mpr
    push_cast
    apply div_nonpos_of_nonpos_of_nonneg _ (le_of_lt hr)
    linarith
  have h3 : (vmin - (vmax - (s - vmax))) / (vmax - vmin) =
      (s - vmax) / (vmax - vmin) - 1 := by field_simp; ring
  have h4 : ⌈(vmin - (vmax - (s - vmax))) / (vmax - vmin)⌉ =
      ⌈(s - vmax) / (vmax - vmin)⌉ - 1 := by rw [h3, Int.ceil_sub_one]
  have h5 : 1 ≤ ⌈(s - vmax) / (vmax - vmin)⌉ := by
    apply Int.ceil_pos.mpr
    exact div_pos hd hr
  omega

/-- C7: for every input sample and every range with `minValue < maxValue`,
the closed-form fold-back of `Rectifier::step` equals the reference
algorithm that iteratively reflects the sample across whichever bound it
exceeds until it lies within the range (run with any sufficient fuel). -/
theorem rectifier_closed_form_eq_iterative (vmin vmax : ℚ) (h : vmin < vmax) :
    ∀ fuel : Nat, ∀ s : ℚ, reflectFuel vmin vmax s ≤ fuel →
      reflectFold vmin vmax fuel s = rectifierStep vmin vmax s := by
  intro fuel
  induction fuel with
  | zero =>
    intro s hf
    exfalso
    unfold reflectFuel at hf
    omega
  | succ fuel ih =>
    intro s hf
    by_cases hlo : s < vmin
    · have hstep : reflectFold vmin vmax (fuel + 1) s =
          reflectFold vmin vmax fuel (vmin + (vmin - s)) := by
        rw [reflectFold, if_pos hlo]
      have hfuel := reflectFuel_flip_low vmin vmax s h hlo
      rw [hstep, ih (vmin + (vmin - s)) (by omega)]
      exact rectifierStep_flip_low vmin vmax s h hlo
    · by_cases hhi : s > vmax
      · have hstep : reflectFold vmin vmax (fuel + 1) s =
            reflectFold vmin vmax fuel (vmax - (s - vmax)) := by
          rw [reflectFold, if_neg hlo, if_pos hhi]
        have hfuel := reflectFuel_flip_high vmin vmax s h hhi
        rw [hstep, ih (vmax - (s - vmax)) (by omega)]
        exact rectifierStep_flip_high vmin vmax s h hhi
      · have hstep : reflectFold vmin vmax (fuel + 1) s = s := by
          unfold reflectFold
          rw [if_neg hlo, if_neg hhi]
        rw [hstep, rectifierStep_within vmin vmax s (not_lt.mp hlo) (not_lt.mp hhi)]

theorem rectifier_closed_form_eq_iterative_witness :
    (0 : ℚ) < 1 ∧ reflectFuel 0 1 (5/2) ≤ 10 ∧
      reflectFold 0 1 10 (5/2) = rectifierStep 0 1 (5/2) := by
  have hb : reflectFuel 0 1 (5/2) ≤ 10 := by
    unfold reflectFuel
    have h1 : (⌈((0:ℚ) - 5/2) / (1 - 0)⌉).toNat = 0 := by
      rw [Int.toNat_eq_zero]
      apply Int.ceil_le.mpr
      push_cast
      norm_num
    have h2 : (⌈((5:ℚ)/2 - 1) / (1 - 0)⌉).toNat ≤ 2 := by
      rw [Int.toNat_le]
      apply Int.ceil_le.mpr
      push_cast
      norm_num
    omega
  exact ⟨by norm_num, hb,
    rectifier_closed_form_eq_iterative 0 1 (by norm_num) 10 (5/2) hb⟩

/-! ## Generators and oscillators (`lib/generators.h`, `oscillators.h`)

The base `Oscillator` state (the `syncSlave` hard-sync pointer is not
modelled; no property below involves it).  Calls to `rand()` are modelled
by rational parameters already divided by `RAND_MAX`, i.e. values in
`[0, 1]`; the transcendental sine is modelled by a function parameter
`sinT` with `sinT t` standing for `sin(TAU * t)`. -/

structure OscState where
  frequency : ℚ
  phase : ℚ
  minValue : ℚ
  maxValue : ℚ
deriving DecidableEq, Repr

/-- `WhiteNoise::step`:
`minValue + ((rand() / RAND_MAX) * (maxValue - minValue))`. -/
def WhiteNoise.step (minValue maxValue rand01 : ℚ) : ℚ :=
  minValue + rand01 * (maxValue - minValue)

/-- `Pulse::step` (the `width` property is passed alongside the oscillator
state). -/
def Pulse.step (stepTime width : ℚ) (st : OscState) : ℚ × OscState :=
  let value := if st.phase < width then st.maxValue else st.minValue
  (value, { st with phase := oscStepPhase stepTime st.frequency st.phase })

/-- `Saw::step`. -/
def Saw.step (stepTime : ℚ) (st : OscState) : ℚ × OscState :=
  let value := st.minValue + st.phase * (st.maxValue - st.minValue)
  (value, { st with phase := oscStepPhase stepTime st.frequency st.phase })

/-- `Triangle::step`. -/
def Triangle.step (stepTime : ℚ) (st : OscState) : ℚ × OscState :=
  let p :=
    if st.phase < 1/4 then 1/2 + st.phase * 2
    else if st.phase < 3/4 then 1 - (st.phase - 1/4) * 2
    else (st.phase - 3/4) * 2
  (st.minValue + p * (st.maxValue - st.minValue),
    { st with phase := oscStepPhase stepTime st.frequency st.phase })

/-- `Sine::step`, with `sinT st.phase` standing for `sin(phase * TAU)`. -/
def Sine.step (sinT : ℚ → ℚ) (stepTime : ℚ) (st : OscState) : ℚ × OscState :=
  let value0 := sinT st.phase
  let value :=
    if st.minValue ≠ -1 ∨ st.maxValue ≠ 1 then
      st.minValue + ((value0 + 1) / 2) * (st.maxValue - st.minValue)
    else value0
  (value, { st with phase := oscStepPhase stepTime st.frequency st.phase })

/-- The state of a `PinkNoise` generator (`PINK_NOISE_OCTAVE_COUNT = 30`). -/
structure PinkNoiseState where
  octaves : List ℚ
  sum : ℚ
  maxSum : ℚ
  counter : Nat
  maxCounter : Nat
  minValue : ℚ
  maxValue : ℚ
deriving DecidableEq, Repr

/-- The `PinkNoise` constructor, with the 30 initial `rand()/RAND_MAX`
draws as a parameter. -/
def PinkNoise.init (initRands : List ℚ) : PinkNoiseState :=
  { octaves := initRands, sum := initRands.sum, maxSum := 30 + 1,
    counter := 0, maxCounter := 2 ^ 30 - 1, minValue := -1, maxValue := 1 }

/-- The trailing-zero count computed by the loop
`while ((n & 1) == 0) { n >>= 1; zeros++; }` in `PinkNoise::step` (for
`n = 0` the C loop would not terminate; the source only calls it with a
non-zero counter). -/
def pinkCtz (n : Nat) : Nat :=
  if n = 0 then 0
  else if n % 2 = 0 then pinkCtz (n / 2) + 1
  else 0
termination_by n
decreasing_by exact Nat.div_lt_self (Nat.pos_of_ne_zero (by assumption)) (by norm_num)

/-- `PinkNoise::step`, with the up-to-two `rand()/RAND_MAX` draws of one
call (`rand01a` replaces an octave register when the counter is non-zero,
`rand01b` is the white-noise sample added every call) as parameters. -/
def PinkNoise.step (st : PinkNoiseState) (rand01a rand01b : ℚ) : ℚ × PinkNoiseState :=
  let counter := (st.counter + 1) &&& st.maxCounter
  let st1 :=
    if counter ≠ 0 then
      let zeros := pinkCtz counter
      { st with counter := counter,
                sum := st.sum - st.octaves.getD zeros 0 + rand01a,
                octaves := st.octaves.set zeros rand01a }
    else { st with counter := counter }
  (st1.minValue + ((st1.sum + rand01b) / st1.maxSum) * (st1.maxValue - st1.minValue), st1)

theorem pinkCtz_pow_le : ∀ n : Nat, n ≠ 0 → 2 ^ pinkCtz n ≤ n := by
  intro n
  induction n using Nat.strong_induction_on with
  | _ n ih =>
    intro hn
    rw [pinkCtz, if_neg hn]
    by_cases he : n % 2 = 0
    · rw [if_pos he]
      have hdiv : n / 2 ≠ 0 := by omega
      have hlt : n / 2 < n := by omega
      have hrec := ih (n / 2) hlt hdiv
      have : 2 ^ (pinkCtz (n / 2) + 1) = 2 * 2 ^ pinkCtz (n / 2) := by ring
      rw [this]
      omega
    · rw [if_neg he]
      omega

theorem list_sum_set (l : List ℚ) (i : Nat) (a : ℚ) (h : i < l.length) :
    (l.set i a).sum = l.sum - l.getD i 0 + a := by
  induction l generalizing i with
  | nil => simp at h
  | cons x rest ih =>
    match i with
    | 0 => simp [List.set, List.getD]; ring
    | Nat.succ j =>
      have hj : j < rest.length := by simpa using h
      simp only [List.set, List.sum_cons, ih j hj]
      have : (x :: rest).getD (j + 1) 0 = rest.getD j 0 := by
        simp [List.getD]
      rw [this]
      ring

theorem list_sum_le_length (l : List ℚ) (h : ∀ x ∈ l, x ≤ 1) :
    l.sum ≤ (l.length : ℚ) := by
  induction l with
  | nil => simp
  | cons x rest ih =>
    have h1 := h x (by simp)
    have h2 := ih (fun y hy => h y (List.mem_cons_of_mem x hy))
    simp only [List.sum_cons, List.length_cons]
    push_cast
    linarith

/-- Mapping a ratio `t ∈ [0, 1]` onto `[minValue, maxValue]` stays within
the range. -/
theorem mapped_range_bound (minV maxV t : ℚ) (hmm : minV ≤ maxV)
    (ht0 : 0 ≤ t) (ht1 : t ≤ 1) :
    minV ≤ minV + t * (maxV - minV) ∧ minV + t * (maxV - minV) ≤ maxV := by
  have h0 : 0 ≤ maxV - minV := sub_nonneg.mpr hmm
  have h1 : 0 ≤ t * (maxV - minV) := mul_nonneg ht0 h0
  have h2 : t * (maxV - minV) ≤ 1 * (maxV - minV) :=
    mul_le_mul_of_nonneg_right ht1 h0
  constructor <;> linarith

/-! ## DC, BrownNoise and the Interpolated oscillator
(`lib/generators.h`: `class DC`, `class BrownNoise`;
`oscillators.h`: `class Interpolated`) -/

/-- `DC::step`: the constant average `(minValue + maxValue) / 2.0`. -/
def DC.step (minValue maxValue : ℚ) : ℚ :=
  (minValue + maxValue) / 2

/-- The state of a `BrownNoise` generator. -/
structure BrownNoiseState where
  sum : ℚ
  maxSum : ℚ
  minValue : ℚ
  maxValue : ℚ
deriving DecidableEq, Repr

/-- The `BrownNoise` constructor: `maxSum = 16.0; sum = maxSum / 2.0`. -/
def BrownNoise.init : BrownNoiseState :=
  { sum := 8, maxSum := 16, minValue := -1, maxValue := 1 }

/-- `BrownNoise::step`, with the `rand()/RAND_MAX` draws of the retry loop
supplied as a list: each draw is scaled to `[-1, 1]` and added to the sum,
and a sum outside `[0, maxSum]` is rolled back (`sum -= r`) before the
loop retries.  `none` models exhausting the supplied draws with every one
rejected, i.e. the C loop still running. -/
def BrownNoise.step (st : BrownNoiseState) : List ℚ → Option (ℚ × BrownNoiseState)
  | [] => none
  | rand01 :: rest =>
    let r := rand01 * 2 - 1
    let sum := st.sum + r
    if sum < 0 ∨ sum > st.maxSum then BrownNoise.step st rest
    else some (st.minValue + (sum / st.maxSum) * (st.maxValue - st.minValue),
      { st with sum := sum })

/-- An `IPoint` of the `Interpolated` oscillator: a phase/value pair. -/
structure IPoint where
  phase : ℚ
  value : ℚ
deriving DecidableEq, Repr

/-- The state of an `Interpolated` oscillator: `points` models the `p[16]`
array and `pcount` the number of leading entries currently in use (set by
`shape`). -/
structure InterpolatedState where
  frequency : ℚ
  phase : ℚ
  minValue : ℚ
  maxValue : ℚ
  value : ℚ
  points : List IPoint
  pcount : ℤ
deriving DecidableEq, Repr

/-- The scan loop of `Interpolated::step` over the in-use points: a point
the phase just jumped across sets `value` to that point's value, and the
first point with a phase above the current phase breaks the loop as the
interpolation target (`none` when the loop runs to the end, leaving the
target at its default `first`). -/
def interpScan (phase phaseStep : ℚ) : List IPoint → ℚ → ℚ × Option IPoint
  | [], value => (value, none)
  | pt :: rest, value =>
    let value2 :=
      if pt.phase ≤ phase ∧ phase - phaseStep < pt.phase then pt.value else value
    if phase < pt.phase then (value2, some pt)
    else interpScan phase phaseStep rest value2

/-- The `value` computed by one `Interpolated::step` call before the range
mapping: the scan loop, the wrap adjustment of `deltaPhase`, and the three
update branches (jump to the target's value when the step overshoots it,
interpolate towards it, hold when `deltaPhase == 0`).  When the scan does
not break, the target stays at its default `first`, i.e. `p[0]` (read even
when `pcount == 0`); that slot's content is the list's first entry, with
`⟨0, 0⟩` standing for an absent one. -/
def interpNextValue (phase phaseStep value : ℚ) (points : List IPoint)
    (pcount : ℤ) : ℚ :=
  let scan := interpScan phase phaseStep (points.take pcount.toNat) value
  let target := scan.2.getD (points.getD 0 ⟨0, 0⟩)
  let deltaPhase0 := target.phase - phase
  let deltaPhase := if deltaPhase0 < 0 then deltaPhase0 + 1 else deltaPhase0
  if phaseStep > deltaPhase then target.value
  else if deltaPhase ≠ 0 then scan.1 + phaseStep * ((target.value - scan.1) / deltaPhase)
  else scan.1

/-- `Interpolated::step`: updates `value` from the point shape, advances
the oscillator phase (`Oscillator::step`), and maps `value` from `[-1, 1]`
onto the configured range. -/
def Interpolated.step (stepTime : ℚ) (st : InterpolatedState) :
    ℚ × InterpolatedState :=
  let value2 := interpNextValue st.phase (stepTime * st.frequency) st.value
    st.points st.pcount
  (st.minValue + ((value2 + 1) / 2) * (st.maxValue - st.minValue),
    { st with value := value2,
              phase := oscStepPhase stepTime st.frequency st.phase })

/-- When `BrownNoise::step` terminates, the accepted sum lies in
`[0, maxSum]` by the loop's exit condition, so the output lies in the
configured range. -/
theorem brownNoise_step_bound (st : BrownNoiseState)
    (hms : 0 < st.maxSum) (hmm : st.minValue ≤ st.maxValue) :
    ∀ (rands : List ℚ) (out : ℚ) (st2 : BrownNoiseState),
      BrownNoise.step st rands = some (out, st2) →
      st.minValue ≤ out ∧ out ≤ st.maxValue := by
  intro rands
  induction rands with
  | nil =>
    intro out st2 h
    simp [BrownNoise.step] at h
  | cons rand01 rest ih =>
    intro out st2 h
    simp only [BrownNoise.step] at h
    by_cases hrej : st.sum + (rand01 * 2 - 1) < 0 ∨ st.sum + (rand01 * 2 - 1) > st.maxSum
    · rw [if_pos hrej] at h
      exact ih out st2 h
    · rw [if_neg hrej] at h
      push_neg at hrej
      rw [Option.some.injEq, Prod.mk.injEq] at h
      obtain ⟨hout, hst⟩ := h
      subst hout
      exact mapped_range_bound _ _ _ hmm
        (div_nonneg hrej.1 (le_of_lt hms)) ((div_le_one hms).mpr hrej.2)

/-- The scan loop of `Interpolated::step` only ever assigns point values
to `value`, so the value it returns stays in `[-1, 1]`. -/
theorem interpScan_value_bound (phase phaseStep : ℚ) (l : List IPoint) :
    ∀ v : ℚ, (∀ pt ∈ l, -1 ≤ pt.value ∧ pt.value ≤ 1) → -1 ≤ v → v ≤ 1 →
      -1 ≤ (interpScan phase phaseStep l v).1 ∧ (interpScan phase phaseStep l v).1 ≤ 1 := by
  induction l with
  | nil =>
    intro v _ hv0 hv1
    exact ⟨hv0, hv1⟩
  | cons pt rest ih =>
    intro v hl hv0 hv1
    have hpt := hl pt (List.mem_cons_self _ _)
    have hrest : ∀ q ∈ rest, -1 ≤ q.value ∧ q.value ≤ 1 :=
      fun q hq => hl q (List.mem_cons_of_mem _ hq)
    have hv2 : -1 ≤ (if pt.phase ≤ phase ∧ phase - phaseStep < pt.phase
          then pt.value else v) ∧
        (if pt.phase ≤ phase ∧ phase - phaseStep < pt.phase
          then pt.value else v) ≤ 1 := by
      by_cases hc : pt.phase ≤ phase ∧ phase - phaseStep < pt.phase
      · simp only [if_pos hc]
        exact hpt
      · simp only [if_neg hc]
        exact ⟨hv0, hv1⟩
    by_cases hbr : phase < pt.phase
    · simp only [interpScan, if_pos hbr]
      exact hv2
    · simp only [interpScan, if_neg hbr]
      exact ih _ hrest hv2.1 hv2.2

/-- A target returned by the scan loop's break is one of the scanned
points, with a phase above the current phase. -/
theorem interpScan_target (phase phaseStep : ℚ) (l : List IPoint) :
    ∀ (v : ℚ) (pt : IPoint), (interpScan phase phaseStep l v).2 = some pt →
      pt ∈ l ∧ phase < pt.phase := by
  induction l with
  | nil =>
    intro v pt h
    exact absurd h (by simp [interpScan])
  | cons q rest ih =>
    intro v pt h
    by_cases hbr : phase < q.phase
    · simp only [interpScan, if_pos hbr] at h
      have hq : q = pt := by simpa using h
      subst hq
      exact ⟨List.mem_cons_self _ _, hbr⟩
    · simp only [interpScan, if_neg hbr] at h
      obtain ⟨hm, hlt⟩ := ih _ pt h
      exact ⟨List.mem_cons_of_mem _ hm, hlt⟩

/-- The three value-update branches at the end of `Interpolated::step`
keep the value in `[-1, 1]`: the interpolation branch is a convex mix of
the current value and the target's value because there
`0 ≤ phaseStep ≤ deltaPhase`. -/
theorem interpMix_bound (phaseStep dp s1 tv : ℚ)
    (hstep : 0 ≤ phaseStep) (hdp0 : 0 ≤ dp)
    (hs0 : -1 ≤ s1) (hs1 : s1 ≤ 1) (htv0 : -1 ≤ tv) (htv1 : tv ≤ 1) :
    -1 ≤ (if phaseStep > dp then tv
          else if dp ≠ 0 then s1 + phaseStep * ((tv - s1) / dp) else s1) ∧
      (if phaseStep > dp then tv
          else if dp ≠ 0 then s1 + phaseStep * ((tv - s1) / dp) else s1) ≤ 1 := by
  by_cases h1 : phaseStep > dp
  · simp only [if_pos h1]
    exact ⟨htv0, htv1⟩
  · simp only [if_neg h1]
    by_cases h2 : dp ≠ 0
    · simp only [if_pos h2]
      have hdpos : 0 < dp := lt_of_le_of_ne hdp0 (Ne.symm h2)
      have hu0 : 0 ≤ phaseStep / dp := div_nonneg hstep hdp0
      have hu1 : phaseStep / dp ≤ 1 := (div_le_one hdpos).mpr (not_lt.mp h1)
      have hveq : s1 + phaseStep * ((tv - s1) / dp) =
          s1 + phaseStep / dp * (tv - s1) := by
        ring
      rw [hveq]
      constructor
      · nlinarith [mul_nonneg (sub_nonneg.mpr hu1) (by linarith : (0:ℚ) ≤ s1 + 1),
          mul_nonneg hu0 (by linarith : (0:ℚ) ≤ tv + 1)]
      · nlinarith [mul_nonneg (sub_nonneg.mpr hu1) (by linarith : (0:ℚ) ≤ 1 - s1),
          mul_nonneg hu0 (by linarith : (0:ℚ) ≤ 1 - tv)]
    · simp only [if_neg h2]
      exact ⟨hs0, hs1⟩

/-- The default target `p[0]` satisfies the point invariants (an absent
entry reads as `⟨0, 0⟩`). -/
theorem interpGetD_bound (points : List IPoint)
    (hpts : ∀ pt ∈ points, (-1 ≤ pt.value ∧ pt.value ≤ 1) ∧
      (0 ≤ pt.phase ∧ pt.phase ≤ 1)) :
    (-1 ≤ (points.getD 0 ⟨0, 0⟩).value ∧ (points.getD 0 ⟨0, 0⟩).value ≤ 1) ∧
      (0 ≤ (points.getD 0 ⟨0, 0⟩).phase ∧ (points.getD 0 ⟨0, 0⟩).phase ≤ 1) := by
  cases points with
  | nil => norm_num [List.getD_nil]
  | cons a rest =>
    have := hpts a (List.mem_cons_self _ _)
    simpa [List.getD_cons_zero] using this

/-- The `value` computed by `Interpolated::step` stays in `[-1, 1]` under
the documented invariants: in-use point phases in `[0, 1]`, point values
and the current value in `[-1, 1]`, the oscillator phase in `[0, 1)` and
a nonnegative phase step. -/
theorem interpNextValue_bound (phase phaseStep value : ℚ)
    (points : List IPoint) (pcount : ℤ)
    (hpts : ∀ pt ∈ points, (-1 ≤ pt.value ∧ pt.value ≤ 1) ∧
      (0 ≤ pt.phase ∧ pt.phase ≤ 1))
    (hv0 : -1 ≤ value) (hv1 : value ≤ 1)
    (hp0 : 0 ≤ phase) (hp1 : phase < 1) (hstep : 0 ≤ phaseStep) :
    -1 ≤ interpNextValue phase phaseStep value points pcount ∧
      interpNextValue phase phaseStep value points pcount ≤ 1 := by
  have htakeV : ∀ pt ∈ points.take pcount.toNat, -1 ≤ pt.value ∧ pt.value ≤ 1 :=
    fun pt hmem => (hpts pt (List.take_subset _ _ hmem)).1
  obtain ⟨hs0, hs1⟩ := interpScan_value_bound phase phaseStep
    (points.take pcount.toNat) value htakeV hv0 hv1
  simp only [interpNextValue]
  cases hsc : (interpScan phase phaseStep (points.take pcount.toNat) value).2 with
  | none =>
    simp only [hsc, Option.getD_none]
    obtain ⟨⟨htv0, htv1⟩, htp0, htp1⟩ := interpGetD_bound points hpts
    refine interpMix_bound phaseStep _ _ _ hstep ?_ hs0 hs1 htv0 htv1
    by_cases hd : (points.getD 0 ⟨0, 0⟩).phase - phase < 0
    · rw [if_pos hd]
      linarith
    · rw [if_neg hd]
      linarith
  | some pt =>
    simp only [hsc, Option.getD_some]
    obtain ⟨hmem, hlt⟩ := interpScan_target phase phaseStep
      (points.take pcount.toNat) value pt hsc
    obtain ⟨⟨htv0, htv1⟩, htp0, htp1⟩ := hpts pt (List.take_subset _ _ hmem)
    refine interpMix_bound phaseStep _ _ _ hstep ?_ hs0 hs1 htv0 htv1
    by_cases hd : pt.phase - phase < 0
    · rw [if_pos hd]
      linarith
    · rw [if_neg hd]
      linarith

/-! ## The additive oscillator (`oscillators.h`: `class Additive`) -/

structure AdditivePartial where
  multiple : ℚ
  amplitude : ℚ
  phase : ℚ
deriving DecidableEq, Repr

/-- The state of an `Additive` oscillator.  The wave table is `none` while
unallocated (`_waveTable == NULL`); the C constructor leaves the other
`_waveTable*` bookkeeping fields uninitialized, modelled as `0`. -/
structure AdditiveState where
  frequency : ℚ
  phase : ℚ
  minValue : ℚ
  maxValue : ℚ
  partialCount : ℤ
  partials : List AdditivePartial
  waveTable : Option (List ℚ)
  waveTableFrequency : ℚ
  waveTableMinValue : ℚ
  waveTableMaxValue : ℚ
  waveTablePeriod : ℚ
  waveTableSamples : ℤ
deriving DecidableEq, Repr

/-- The `Additive(partialCount, f)` constructor: partial `i` (1-based; the
entry at index 0 is ignored) gets multiple `i` and amplitude `1/i`. -/
def Additive.init (partialCount : ℤ) (f : ℚ) : AdditiveState :=
  let pc := if partialCount < 1 then 1 else partialCount
  { frequency := f, phase := 0, minValue := -1, maxValue := 1,
    partialCount := pc,
    partials := ⟨0, 0, 0⟩ :: (List.range pc.toNat).map
      (fun i => ⟨((i : ℚ) + 1), 1 / ((i : ℚ) + 1), 0⟩),
    waveTable := none,
    waveTableFrequency := 0, waveTableMinValue := 0, waveTableMaxValue := 0,
    waveTablePeriod := 0, waveTableSamples := 0 }

/-- `Generator::setRange` on an `Additive` oscillator. -/
def Additive.setRange (st : AdditiveState) (lo hi : ℚ) : AdditiveState :=
  { st with minValue := lo, maxValue := hi }

/-- `Additive::_updateWaveTable`, with `sinT t` standing for
`sin(TAU * t)`: the fill loop accumulates `phase += TAU / period`, so the
sample at index `i` is `sin(i * TAU / period) = sinT (i / period)`. -/
def Additive.updateWaveTable (sinT : ℚ → ℚ) (stepTime : ℚ)
    (st : AdditiveState) : AdditiveState :=
  let frequencyChanged := st.frequency ≠ st.waveTableFrequency
  let rangeChanged :=
    st.minValue ≠ st.waveTableMinValue ∨ st.maxValue ≠ st.waveTableMaxValue
  let st1 :=
    if frequencyChanged then
      let period := 1 / (st.frequency * stepTime)
      let samples : ℤ := ⌈period⌉
      let stf := { st with waveTableFrequency := st.frequency,
                           waveTablePeriod := period }
      if samples ≠ st.waveTableSamples then
        { stf with waveTableSamples := samples,
                   waveTable := some (List.replicate samples.toNat 0) }
      else stf
    else st
  if frequencyChanged ∨ rangeChanged then
    { st1 with
        waveTable := some ((List.range st1.waveTableSamples.toNat).map (fun i =>
          st1.minValue + ((sinT ((i : ℚ) / st1.waveTablePeriod) + 1) / 2)
            * (st1.maxValue - st1.minValue))),
        waveTableMinValue := st1.minValue, waveTableMaxValue := st1.maxValue }
  else st1

/-- The per-partial loop of `Additive::step` over the partials from index 1
(out-of-bounds wave-table reads, undefined in C, are modelled as `0`):
accumulates the interpolated wave-table samples and advances each
partial's phase. -/
def additivePartialLoop (table : List ℚ) (n : ℤ) (period phaseStep : ℚ) :
    List AdditivePartial → ℚ → ℚ × List AdditivePartial
  | [], acc => (acc, [])
  | p :: rest, acc =>
    let sample := period * p.phase
    let sampleIndex := Int.tmod ⌊sample⌋ n
    let mix := sample - (sampleIndex : ℚ)
    let curr := table.getD sampleIndex.toNat 0
    let next := table.getD (Int.tmod (sampleIndex + 1) n).toNat 0
    let acc2 := acc + p.amplitude * (curr * (1 - mix) + next * mix)
    let p2 := { p with phase := fmodQ (p.phase + phaseStep * p.multiple) 1 }
    let res := additivePartialLoop table n period phaseStep rest acc2
    (res.1, p2 :: res.2)

/-- `Additive::step`: returns `0.0` immediately when the frequency is `0`
or no partials are defined; otherwise refreshes the wave table, sums the
interpolated partials, advances the partial phases and the oscillator
phase. -/
def Additive.step (sinT : ℚ → ℚ) (stepTime : ℚ) (st : AdditiveState) :
    ℚ × AdditiveState :=
  if st.frequency = 0 ∨ st.partialCount < 1 then (0, st)
  else
    let st1 := Additive.updateWaveTable sinT stepTime st
    let res := additivePartialLoop (st1.waveTable.getD []) st1.waveTableSamples
      st1.waveTablePeriod (stepTime * st.frequency) (st1.partials.drop 1) 0
    (res.1,
      { st1 with partials := st1.partials.take 1 ++ res.2,
                 phase := oscStepPhase stepTime st1.frequency st1.phase })

/-- C3 counterexample: an `Additive` oscillator with its range set to
`[1, 2]` and frequency still at its default `0.0` returns `0.0` from
`step`, which is below `minValue = 1` — the output is not confined to
`[minValue, maxValue]`.  (The sine model is irrelevant on this path and is
instantiated with the zero function.) -/
theorem additive_out_of_range_cex :
    (Additive.step (fun _ => 0) (1/64) (Additive.setRange (Additive.init 1 0) 1 2)).1 = 0 ∧
      (Additive.setRange (Additive.init 1 0) 1 2).minValue = 1 ∧
      ¬ ((Additive.setRange (Additive.init 1 0) 1 2).minValue ≤
        (Additive.step (fun _ => 0) (1/64) (Additive.setRange (Additive.init 1 0) 1 2)).1) := by
  have h1 : (Additive.step (fun _ => 0) (1/64)
      (Additive.setRange (Additive.init 1 0) 1 2)).1 = 0 := by
    unfold Additive.step
    rw [if_pos (show (Additive.setRange (Additive.init 1 0) 1 2).frequency = 0 ∨
        (Additive.setRange (Additive.init 1 0) 1 2).partialCount < 1 from Or.inl rfl)]
  have h2 : (Additive.setRange (Additive.init 1 0) 1 2).minValue = 1 := rfl
  exact ⟨h1, h2, by rw [h1, h2]; norm_num⟩

/-- C3 amended: the in-range property holds for every generator family of
`generators.h` and `oscillators.h` other than Additive — WhiteNoise,
Pulse, Saw, Triangle, Sine (given a sine primitive bounded by `[-1, 1]`),
PinkNoise (under its constructor-established state invariants), DC,
BrownNoise (on any terminating call, under its loop-maintained
`sum ∈ [0, maxSum]` invariant) and Interpolated (under the documented
point/value invariants and a nonnegative phase step) — each with
`minValue ≤ maxValue` and the oscillator phase invariant `[0, 1)`; the
Additive oscillator violates it (see the counterexample). -/
theorem generator_output_in_range_amended :
    (∀ minValue maxValue rand01 : ℚ, minValue ≤ maxValue →
      0 ≤ rand01 → rand01 ≤ 1 →
      minValue ≤ WhiteNoise.step minValue maxValue rand01 ∧
        WhiteNoise.step minValue maxValue rand01 ≤ maxValue) ∧
    (∀ stepTime width : ℚ, ∀ st : OscState, st.minValue ≤ st.maxValue →
      st.minValue ≤ (Pulse.step stepTime width st).1 ∧
        (Pulse.step stepTime width st).1 ≤ st.maxValue) ∧
    (∀ stepTime : ℚ, ∀ st : OscState, st.minValue ≤ st.maxValue →
      0 ≤ st.phase → st.phase < 1 →
      st.minValue ≤ (Saw.step stepTime st).1 ∧
        (Saw.step stepTime st).1 ≤ st.maxValue) ∧
    (∀ stepTime : ℚ, ∀ st : OscState, st.minValue ≤ st.maxValue →
      0 ≤ st.phase → st.phase < 1 →
      st.minValue ≤ (Triangle.step stepTime st).1 ∧
        (Triangle.step stepTime st).1 ≤ st.maxValue) ∧
    (∀ sinT : ℚ → ℚ, (∀ x, -1 ≤ sinT x ∧ sinT x ≤ 1) →
      ∀ stepTime : ℚ, ∀ st : OscState, st.minValue ≤ st.maxValue →
      st.minValue ≤ (Sine.step sinT stepTime st).1 ∧
        (Sine.step sinT stepTime st).1 ≤ st.maxValue) ∧
    (∀ st : PinkNoiseState, ∀ rand01a rand01b : ℚ,
      st.octaves.length = 30 → (∀ x ∈ st.octaves, 0 ≤ x ∧ x ≤ 1) →
      st.sum = st.octaves.sum → st.maxSum = 31 → st.maxCounter = 2 ^ 30 - 1 →
      st.minValue ≤ st.maxValue →
      0 ≤ rand01a → rand01a ≤ 1 → 0 ≤ rand01b → rand01b ≤ 1 →
      st.minValue ≤ (PinkNoise.step st rand01a rand01b).1 ∧
        (PinkNoise.step st rand01a rand01b).1 ≤ st.maxValue) ∧
    (∀ minValue maxValue : ℚ, minValue ≤ maxValue →
      minValue ≤ DC.step minValue maxValue ∧ DC.step minValue maxValue ≤ maxValue) ∧
    (∀ st : BrownNoiseState, ∀ rands : List ℚ, ∀ out : ℚ, ∀ st2 : BrownNoiseState,
      0 < st.maxSum → st.minValue ≤ st.maxValue →
      BrownNoise.step st rands = some (out, st2) →
      st.minValue ≤ out ∧ out ≤ st.maxValue) ∧
    (∀ stepTime : ℚ, ∀ st : InterpolatedState, st.minValue ≤ st.maxValue →
      -1 ≤ st.value → st.value ≤ 1 →
      (∀ pt ∈ st.points, (-1 ≤ pt.value ∧ pt.value ≤ 1) ∧
        (0 ≤ pt.phase ∧ pt.phase ≤ 1)) →
      0 ≤ st.phase → st.phase < 1 → 0 ≤ stepTime * st.frequency →
      st.minValue ≤ (Interpolated.step stepTime st).1 ∧
        (Interpolated.step stepTime st).1 ≤ st.maxValue) := by
  refine ⟨?_, ?_, ?_, ?_, ?_, ?_, ?_, ?_, ?_⟩
  · intro minValue maxValue rand01 hmm h0 h1
    exact mapped_range_bound minValue maxValue rand01 hmm h0 h1
  · intro stepTime width st hmm
    unfold Pulse.step
    by_cases hp : st.phase < width
    · simp only [if_pos hp]
      exact ⟨hmm, le_refl _⟩
    · simp only [if_neg hp]
      exact ⟨le_refl _, hmm⟩
  · intro stepTime st hmm hp0 hp1
    unfold Saw.step
    exact mapped_range_bound st.minValue st.maxValue st.phase hmm hp0 (le_of_lt hp1)
  · intro stepTime st hmm hp0 hp1
    unfold Triangle.step
    by_cases hq : st.phase < 1/4
    · simp only [if_pos hq]
      exact mapped_range_bound _ _ _ hmm (by linarith) (by linarith)
    · by_cases hq2 : st.phase < 3/4
      · simp only [if_neg hq, if_pos hq2]
        exact mapped_range_bound _ _ _ hmm (by linarith) (by linarith)
      · simp only [if_neg hq, if_neg hq2]
        exact mapped_range_bound _ _ _ hmm (by linarith) (by linarith)
  · intro sinT hsin stepTime st hmm
    unfold Sine.step
    by_cases hd : st.minValue ≠ -1 ∨ st.maxValue ≠ 1
    · simp only [if_pos hd]
      rcases hsin st.phase with ⟨hs1, hs2⟩
      exact mapped_range_bound _ _ _ hmm (by linarith) (by linarith)
    · simp only [if_neg hd]
      push_neg at hd
      rcases hsin st.phase with ⟨hs1, hs2⟩
      rw [hd.1, hd.2]
      exact ⟨hs1, hs2⟩
  · intro st rand01a rand01b hlen hoct hsum hmaxs hmaxc hmm ha0 ha1 hb0 hb1
    unfold PinkNoise.step
    have hbound : ∀ S : ℚ, 0 ≤ S → S ≤ 30 →
        st.minValue ≤ st.minValue + ((S + rand01b) / 31) * (st.maxValue - st.minValue) ∧
          st.minValue + ((S + rand01b) / 31) * (st.maxValue - st.minValue) ≤ st.maxValue := by
      intro S hS0 hS1
      apply mapped_range_bound _ _ _ hmm
      · positivity
      · rw [div_le_one (by norm_num : (0:ℚ) < 31)]
        linarith
    by_cases hcz : (st.counter + 1) &&& st.maxCounter ≠ 0
    · simp only [if_pos hcz]
      have hcle : (st.counter + 1) &&& st.maxCounter ≤ st.maxCounter :=
        Nat.and_le_right
      have hclt : (st.counter + 1) &&& st.maxCounter < 2 ^ 30 := by
        calc (st.counter + 1) &&& st.maxCounter ≤ st.maxCounter := Nat.and_le_right
          _ = 2 ^ 30 - 1 := hmaxc
          _ < 2 ^ 30 := Nat.sub_lt (by positivity) (by norm_num)
      have hzlt : pinkCtz ((st.counter + 1) &&& st.maxCounter) < 30 := by
        by_contra hge
        push_neg at hge
        have h1 := pinkCtz_pow_le _ hcz
        have h2 : (2:ℕ) ^ 30 ≤ 2 ^ pinkCtz ((st.counter + 1) &&& st.maxCounter) :=
          Nat.pow_le_pow_right (by norm_num) hge
        omega
      have hzlen : pinkCtz ((st.counter + 1) &&& st.maxCounter) < st.octaves.length := by
        rw [hlen]; exact hzlt
      have hsum2 : st.sum - st.octaves.getD (pinkCtz ((st.counter + 1) &&& st.maxCounter)) 0
          + rand01a =
          (st.octaves.set (pinkCtz ((st.counter + 1) &&& st.maxCounter)) rand01a).sum := by
        rw [list_sum_set _ _ _ hzlen, hsum]
      have hmem : ∀ x ∈ st.octaves.set (pinkCtz ((st.counter + 1) &&& st.maxCounter)) rand01a,
          0 ≤ x ∧ x ≤ 1 := by
        intro x hx
        rcases List.mem_or_eq_of_mem_set hx with hx' | hx'
        · exact hoct x hx'
        · subst hx'; exact ⟨ha0, ha1⟩
      have hS0 : 0 ≤ st.sum - st.octaves.getD (pinkCtz ((st.counter + 1) &&& st.maxCounter)) 0
          + rand01a := by
        rw [hsum2]
        exact List.sum_nonneg (fun x hx => (hmem x hx).1)
      have hS1 : st.sum - st.octaves.getD (pinkCtz ((st.counter + 1) &&& st.maxCounter)) 0
          + rand01a ≤ 30 := by
        rw [hsum2]
        have := list_sum_le_length _ (fun x hx => (hmem x hx).2)
        have hlen2 : (st.octaves.set (pinkCtz ((st.counter + 1) &&& st.maxCounter))
            rand01a).length = 30 := by
          rw [List.length_set, hlen]
        rw [hlen2] at this
        exact_mod_cast this
      have := hbound _ hS0 hS1
      simpa [hmaxs] using this
    · simp only [if_neg hcz]
      have hS0 : 0 ≤ st.sum := by
        rw [hsum]
        exact List.sum_nonneg (fun x hx => (hoct x hx).1)
      have hS1 : st.sum ≤ 30 := by
        rw [hsum]
        have := list_sum_le_length _ (fun x hx => (hoct x hx).2)
        rw [hlen] at this
        exact_mod_cast this
      have := hbound _ hS0 hS1
      simpa [hmaxs] using this
  · intro minValue maxValue hmm
    unfold DC.step
    constructor <;> linarith
  · intro st rands out st2 hms hmm h
    exact brownNoise_step_bound st hms hmm rands out st2 h
  · intro stepTime st hmm hv0 hv1 hpts hp0 hp1 hstep
    have hb := interpNextValue_bound st.phase (stepTime * st.frequency) st.value
      st.points st.pcount hpts hv0 hv1 hp0 hp1 hstep
    simp only [Interpolated.step]
    exact mapped_range_bound st.minValue st.maxValue
      ((interpNextValue st.phase (stepTime * st.frequency) st.value
        st.points st.pcount + 1) / 2)
      hmm (by linarith [hb.1]) (by linarith [hb.2])

/-- A concrete `Interpolated` state for the witness below: a fresh
oscillator (value `0.0`, no points shaped yet) at 440 Hz with range
`[0, 1]`. -/
def witnessInterpState : InterpolatedState :=
  { frequency := 440, phase := 0, minValue := 0, maxValue := 1,
    value := 0, points := [], pcount := 0 }

theorem generator_output_in_range_amended_witness :
    ((0 : ℚ) ≤ WhiteNoise.step 0 1 (1/2) ∧ WhiteNoise.step 0 1 (1/2) ≤ 1) ∧
      ((0 : ℚ) ≤ (PinkNoise.step (PinkNoise.init (List.replicate 30 0)) 0 0).1 + 1 ∧
        (PinkNoise.step (PinkNoise.init (List.replicate 30 0)) 0 0).1 ≤ 1) ∧
      ((0 : ℚ) ≤ DC.step 0 1 ∧ DC.step 0 1 ≤ 1) ∧
      (BrownNoise.init.minValue ≤ 0 ∧ (0 : ℚ) ≤ BrownNoise.init.maxValue) ∧
      (witnessInterpState.minValue ≤ (Interpolated.step (1/64) witnessInterpState).1 ∧
        (Interpolated.step (1/64) witnessInterpState).1 ≤ witnessInterpState.maxValue) := by
  refine ⟨?_, ?_, ?_, ?_, ?_⟩
  · exact (generator_output_in_range_amended.1 0 1 (1/2)
      (by norm_num) (by norm_num) (by norm_num))
  · have h := (generator_output_in_range_amended.2.2.2.2.2.1
      (PinkNoise.init (List.replicate 30 0)) 0 0
      (by simp [PinkNoise.init])
      (by intro x hx
          have hx0 : x = 0 := by simpa [PinkNoise.init] using hx
          subst hx0
          norm_num)
      (by simp [PinkNoise.init])
      (by norm_num [PinkNoise.init])
      (by norm_num [PinkNoise.init])
      (by norm_num [PinkNoise.init])
      (le_refl 0) (by norm_num) (le_refl 0) (by norm_num))
    have hmin : (PinkNoise.init (List.replicate 30 0)).minValue = -1 := rfl
    have hmax : (PinkNoise.init (List.replicate 30 0)).maxValue = 1 := rfl
    rw [hmin, hmax] at h
    exact ⟨by linarith [h.1], h.2⟩
  · exact generator_output_in_range_amended.2.2.2.2.2.2.1 0 1 (by norm_num)
  · exact generator_output_in_range_amended.2.2.2.2.2.2.2.1 BrownNoise.init
      [1/2] 0 BrownNoise.init
      (by norm_num [BrownNoise.init]) (by norm_num [BrownNoise.init])
      (by norm_num [BrownNoise.step, BrownNoise.init])
  · exact generator_output_in_range_amended.2.2.2.2.2.2.2.2 (1/64) witnessInterpState
      (by norm_num [witnessInterpState]) (by norm_num [witnessInterpState])
      (by norm_num [witnessInterpState])
      (by intro pt hpt
          simp [witnessInterpState] at hpt)
      (by norm_num [witnessInterpState]) (by norm_num [witnessInterpState])
      (by norm_num [witnessInterpState])
